import Mathlib

/-!
Verification of the x86-64 IR lowering backend (`IrLoweringX64.cpp`).

This file shallowly embeds the data model and the instruction-lowering
routines that the claims concern, and proves or refutes each claim
against that embedding.  Machine integers are modelled as `Nat`/`Int`
with explicit bounds; IEEE-754 binary64 values are modelled as exact
rationals together with an executable round-to-nearest-ties-to-even
rounding function; emitted native code is modelled as the function it
computes (for arithmetic opcodes) or as a small instruction list (for
branch opcodes).
-/

namespace LuauX64

/-! ## Operand model

Operand kinds of `IrOp`, from the spec's data-model list (the
`IrOpKind` enumeration lives in `IrData.h`, upstream of the lowering
source; the lowering source pattern-matches on exactly these kinds). -/

inductive IrOpKind where
  | None
  | Undef
  | Constant
  | Inst
  | VmReg
  | VmConst
  | VmUpvalue
  | VmExit
  | Block
  deriving DecidableEq

/-- An abstract IR operand: a kind together with its payload index
(constant index, VM slot index, instruction index, ...). -/
structure IrOp where
  kind : IrOpKind
  index : Nat
  deriving DecidableEq

/-- Concrete x86-64 operand locations produced by the operand
resolvers of `IrLoweringX64.cpp`. -/
inductive OperandX64 where
  /-- Result of `regOp(op)`: the register already assigned to the IR value. -/
  | instReg (idx : Nat)
  /-- An immediate 32-bit operand. -/
  | imm32 (v : Int)
  /-- Memory operand `luauRegValue(r)` for a VM register's double value. -/
  | luauRegValue (r : Nat)
  /-- Memory operand `luauRegValueInt(r)` for a VM register's int value. -/
  | luauRegValueInt (r : Nat)
  /-- Memory operand `luauConstantValue(k)` for a constant-table value. -/
  | luauConstantValue (k : Nat)
  /-- Memory operand `luauRegTag(r)` for a VM register's tag field. -/
  | luauRegTag (r : Nat)
  /-- Memory operand `luauConstantTag(k)` for a constant-table tag field. -/
  | luauConstantTag (k : Nat)
  /-- Pooled floating-point constant data, `build.f64(x)`. -/
  | f64const (k : Nat)
  deriving DecidableEq

/-- Model of `IrLoweringX64::memRegDoubleOp` (IrLoweringX64.cpp:1744-1761):
accepts Inst, Constant, VmReg and VmConst operands; every other kind
hits `LUAU_ASSERT(!"Unsupported operand kind")`, modelled as `none`. -/
def memRegDoubleOp (op : IrOp) : Option OperandX64 :=
  match op.kind with
  | IrOpKind.Inst => some (OperandX64.instReg op.index)
  | IrOpKind.Constant => some (OperandX64.f64const op.index)
  | IrOpKind.VmReg => some (OperandX64.luauRegValue op.index)
  | IrOpKind.VmConst => some (OperandX64.luauConstantValue op.index)
  | _ => none

/-- Model of `IrLoweringX64::memRegUintOp` (IrLoweringX64.cpp:1763-1778):
accepts Inst, Constant and VmReg operands; every other kind (including
VmConst) hits `LUAU_ASSERT(!"Unsupported operand kind")`, modelled as
`none`.  The Constant payload is read with `unsigned(intOp(op))`. -/
def memRegUintOp (op : IrOp) : Option OperandX64 :=
  match op.kind with
  | IrOpKind.Inst => some (OperandX64.instReg op.index)
  | IrOpKind.Constant => some (OperandX64.imm32 (Int.ofNat op.index))
  | IrOpKind.VmReg => some (OperandX64.luauRegValueInt op.index)
  | _ => none

/-- Model of `IrLoweringX64::memRegTagOp` (IrLoweringX64.cpp:1780-1795):
accepts Inst, VmReg and VmConst operands. -/
def memRegTagOp (op : IrOp) : Option OperandX64 :=
  match op.kind with
  | IrOpKind.Inst => some (OperandX64.instReg op.index)
  | IrOpKind.VmReg => some (OperandX64.luauRegTag op.index)
  | IrOpKind.VmConst => some (OperandX64.luauConstantTag op.index)
  | _ => none

/-! ## Tag constants and truthiness

Modelled from the spec: the runtime's tag constants for nil and
boolean (defined in `lua.h`, outside the lowering source).  The
lowering relies only on the two tags being distinct small integers. -/

def LUA_TNIL : Nat := 0

def LUA_TBOOLEAN : Nat := 1

/-- The language's falsiness predicate, written from the spec's words:
a value is falsy iff its tag is nil, or its tag is boolean and its
payload is zero. -/
def isFalsy (tag payload : Nat) : Prop :=
  tag = LUA_TNIL ∨ (tag = LUA_TBOOLEAN ∧ payload = 0)

instance (tag payload : Nat) : Decidable (isFalsy tag payload) := by
  unfold isFalsy; infer_instance

/-- Model of the `IrCmd::NOT_ANY` lowering (IrLoweringX64.cpp:559-601),
register operand path, as the value the emitted branch sequence leaves
in the destination register:
`cmp tag, LUA_TNIL; je saveone; cmp tag, LUA_TBOOLEAN; jne savezero;
cmp value, 0; je saveone; savezero: mov dst, 0; jmp exit;
saveone: mov dst, 1; exit:` -/
def notAnyLowered (tag payload : Nat) : Nat :=
  if tag = LUA_TNIL then 1
  else if tag ≠ LUA_TBOOLEAN then 0
  else if payload = 0 then 1
  else 0

/-- Model of the `IrCmd::CHECK_TRUTHY` lowering
(IrLoweringX64.cpp:1031-1056), non-constant tag path, as the decision
whether the guard branches to the fallback (exit) target: fallback on
nil tag; skip the value test for non-boolean tags; fallback on a zero
boolean value. -/
def checkTruthyFallsBack (tag payload : Nat) : Bool :=
  if tag = LUA_TNIL then true
  else if tag ≠ LUA_TBOOLEAN then false
  else decide (payload = 0)

/-! ## Bit-count lowering -/

/-- Hardware `bsr` on a nonzero 32-bit input: the index of the highest
set bit, which is `Nat.log2`. -/
def bsr (n : Nat) : Nat := Nat.log2 n

/-- Hardware `bsf` on a nonzero input: the index of the lowest set
bit.  Defined with explicit fuel; 32 units suffice for 32-bit inputs. -/
def bsfAux : Nat → Nat → Nat
  | 0, _ => 0
  | fuel + 1, n => if n % 2 = 1 then 0 else bsfAux fuel (n / 2) + 1

def bsf (n : Nat) : Nat := bsfAux 32 n

/-- Model of the `IrCmd::BITCOUNTLZ_UINT` lowering
(IrLoweringX64.cpp:1513-1531):
`test src, src; je zero; bsr dst, src; xor dst, 0x1f; jmp exit;
zero: mov dst, 32; exit:` -/
def bitcountlzLowered (n : Nat) : Nat :=
  if n = 0 then 32 else (bsr n) ^^^ 0x1f

/-- Model of the `IrCmd::BITCOUNTRZ_UINT` lowering
(IrLoweringX64.cpp:1532-1549):
`test src, src; je zero; bsf dst, src; jmp exit; zero: mov dst, 32;
exit:` -/
def bitcountrzLowered (n : Nat) : Nat :=
  if n = 0 then 32 else bsf n

/-! ## Supporting lemmas for the bit-count claim -/

theorem xor_31_eq_sub (v : Nat) (hv : v < 32) : v ^^^ 0x1f = 31 - v := by
  interval_cases v <;> decide

theorem log2_lt_32 (n : Nat) (hn : 0 < n) (h : n < 2 ^ 32) : Nat.log2 n < 32 := by
  by_contra hge
  push_neg at hge
  have h1 : 2 ^ 32 ≤ 2 ^ Nat.log2 n := Nat.pow_le_pow_right (by norm_num) hge
  have h2 : 2 ^ Nat.log2 n ≤ n := Nat.log2_self_le (by omega)
  omega

theorem bsfAux_spec (fuel n : Nat) (hn : 0 < n) (hlt : n < 2 ^ fuel) :
    2 ^ bsfAux fuel n ∣ n ∧ ¬ 2 ^ (bsfAux fuel n + 1) ∣ n := by
  induction fuel generalizing n with
  | zero =>
    norm_num at hlt
    omega
  | succ f ih =>
    by_cases hodd : n % 2 = 1
    · constructor
      · simp [bsfAux, hodd]
      · simp only [bsfAux, if_pos hodd, Nat.zero_add, Nat.pow_one]
        rintro ⟨t, ht⟩
        omega
    · have heven : n % 2 = 0 := by omega
      have hm : n = 2 * (n / 2) := by omega
      set m := n / 2 with hmdef
      have hpos : 0 < m := by omega
      have hp : 2 ^ (f + 1) = 2 * 2 ^ f := by rw [Nat.pow_succ]; ring
      have hlt2 : m < 2 ^ f := by omega
      obtain ⟨h1, h2⟩ := ih m hpos hlt2
      have hb : bsfAux (f + 1) n = bsfAux f m + 1 := by
        simp [bsfAux, hodd]
      rw [hb]
      constructor
      · obtain ⟨t, ht⟩ := h1
        refine ⟨t, ?_⟩
        rw [Nat.pow_succ]
        calc n = 2 * m := hm
          _ = 2 * (2 ^ bsfAux f m * t) := by rw [← ht]
          _ = 2 ^ bsfAux f m * 2 * t := by ring
      · rintro ⟨t, ht⟩
        apply h2
        refine ⟨t, ?_⟩
        have hq : 2 ^ (bsfAux f m + 1 + 1) = 2 * 2 ^ (bsfAux f m + 1) := by
          rw [Nat.pow_succ]; ring
        rw [hq, Nat.mul_assoc] at ht
        have h3 : 2 * m = 2 * (2 ^ (bsfAux f m + 1) * t) := by rw [← hm]; exact ht
        exact Nat.eq_of_mul_eq_mul_left (by norm_num) h3

/-! ## Claim C3 -/

/-- C3: the count-leading-zeros and count-trailing-zeros lowerings
special-case the zero input to return the bit width 32; on nonzero
32-bit inputs they compute the leading-zero count (characterised by
the two-sided power bound) and the trailing-zero count (characterised
by exact divisibility), with clz(0) = 32, ctz(0) = 32, clz(1) = 31,
ctz(1) = 0. -/
theorem bitcount_lowering_correct :
    (bitcountlzLowered 0 = 32 ∧ bitcountrzLowered 0 = 32 ∧
     bitcountlzLowered 1 = 31 ∧ bitcountrzLowered 1 = 0) ∧
    (∀ n : Nat, 0 < n → n < 2 ^ 32 →
      bitcountlzLowered n = 31 - Nat.log2 n ∧
      2 ^ (31 - bitcountlzLowered n) ≤ n ∧ n < 2 ^ (32 - bitcountlzLowered n) ∧
      2 ^ bitcountrzLowered n ∣ n ∧ ¬ 2 ^ (bitcountrzLowered n + 1) ∣ n) := by
  constructor
  · refine ⟨rfl, rfl, ?_, by decide⟩
    have hlog : Nat.log2 1 = 0 := by
      rw [Nat.log2_eq_log_two]
      exact Nat.log_one_right 2
    simp [bitcountlzLowered, bsr, hlog]
  · intro n hn hlt
    have hne : n ≠ 0 := by omega
    have hlog : Nat.log2 n < 32 := log2_lt_32 n hn hlt
    have hlz : bitcountlzLowered n = 31 - Nat.log2 n := by
      unfold bitcountlzLowered bsr
      rw [if_neg hne]
      exact xor_31_eq_sub _ hlog
    refine ⟨hlz, ?_, ?_, ?_, ?_⟩
    · rw [hlz]
      have hsub : 31 - (31 - Nat.log2 n) = Nat.log2 n := by omega
      rw [hsub]
      exact Nat.log2_self_le hne
    · rw [hlz]
      have hsub : 32 - (31 - Nat.log2 n) = Nat.log2 n + 1 := by omega
      rw [hsub]
      exact Nat.lt_log2_self
    · have := bsfAux_spec 32 n hn hlt
      unfold bitcountrzLowered
      rw [if_neg hne]
      exact this.1
    · have := bsfAux_spec 32 n hn hlt
      unfold bitcountrzLowered
      rw [if_neg hne]
      exact this.2

/-- Witness for C3: instantiates the universally quantified part at
the concrete input 12 = 0b1100 (clz = 28, ctz = 2). -/
theorem bitcount_lowering_correct_witness :
    0 < 12 ∧ 12 < 2 ^ 32 ∧
      (bitcountlzLowered 12 = 31 - Nat.log2 12 ∧
       2 ^ (31 - bitcountlzLowered 12) ≤ 12 ∧ 12 < 2 ^ (32 - bitcountlzLowered 12) ∧
       2 ^ bitcountrzLowered 12 ∣ 12 ∧ ¬ 2 ^ (bitcountrzLowered 12 + 1) ∣ 12) :=
  ⟨by norm_num, by norm_num,
    bitcount_lowering_correct.2 12 (by norm_num) (by norm_num)⟩

/-! ## Claim C4 -/

/-- C4: the NOT_ANY negation lowering produces 1 exactly on falsy
inputs and 0 otherwise, and the CHECK_TRUTHY guard lowering branches
to its fallback target exactly on falsy inputs, where a value is falsy
iff its tag is nil or its tag is boolean with payload zero; every
other tag is truthy regardless of payload. -/
theorem notAny_checkTruthy_truthiness :
    ∀ tag payload : Nat,
      (notAnyLowered tag payload = 1 ↔ isFalsy tag payload) ∧
      (notAnyLowered tag payload = 0 ↔ ¬ isFalsy tag payload) ∧
      (checkTruthyFallsBack tag payload = true ↔ isFalsy tag payload) := by
  intro tag payload
  unfold notAnyLowered checkTruthyFallsBack isFalsy LUA_TNIL LUA_TBOOLEAN
  by_cases h0 : tag = 0 <;> by_cases h1 : tag = 1 <;>
    by_cases hp : payload = 0 <;> simp [h0, h1, hp]

/-! ## Claim C10 -/

/-- C10: the unsigned-32-bit operand resolver accepts exactly operand
kinds Inst, Constant and VmReg, while the double resolver additionally
accepts VmConst; in particular a constant-table operand resolves where
a double is demanded but asserts where an unsigned value is demanded. -/
theorem memRegOp_supported_kinds :
    ∀ op : IrOp,
      (((memRegUintOp op).isSome) ↔
        (op.kind = IrOpKind.Inst ∨ op.kind = IrOpKind.Constant ∨
         op.kind = IrOpKind.VmReg)) ∧
      (((memRegDoubleOp op).isSome) ↔
        (op.kind = IrOpKind.Inst ∨ op.kind = IrOpKind.Constant ∨
         op.kind = IrOpKind.VmReg ∨ op.kind = IrOpKind.VmConst)) ∧
      (memRegUintOp ⟨IrOpKind.VmConst, op.index⟩ = none ∧
       memRegDoubleOp ⟨IrOpKind.VmConst, op.index⟩ =
         some (OperandX64.luauConstantValue op.index)) := by
  rintro ⟨k, i⟩
  cases k <;> simp [memRegUintOp, memRegDoubleOp]

/-! ## Spill budget and the post-pass error query -/

/-- Modelled from the spec: the fixed spill-slot budget `kSpillSlots`
(defined in `IrRegAllocX64.h`, outside the lowering source).  The
claim depends only on the budget being a fixed constant, not on its
numeric value. -/
def kSpillSlots : Nat := 5

/-- Modelled from the spec: the register allocator's spill-slot
high-water mark (`regs.maxUsedSlot`, maintained in `IrRegAllocX64.cpp`
outside the lowering source): the maximum slot index handed out over
the whole pass.  The allocator records the mark and keeps going; being
a total function, the model cannot abort mid-pass. -/
def maxUsedSlot (slotsUsed : List Nat) : Nat := slotsUsed.foldr max 0

/-- Model of `IrLoweringX64::hasError` (IrLoweringX64.cpp:1658-1665):
`return regs.maxUsedSlot > kSpillSlots`. -/
def hasError (maxUsed : Nat) : Bool := decide (maxUsed > kSpillSlots)

theorem lt_maxUsedSlot_iff (c : Nat) :
    ∀ l : List Nat, c < maxUsedSlot l ↔ ∃ s ∈ l, c < s := by
  intro l
  induction l with
  | nil => simp [maxUsedSlot]
  | cons a l ih =>
    have hfold : maxUsedSlot (a :: l) = max a (maxUsedSlot l) := rfl
    rw [hfold, lt_max_iff, ih]
    simp

/-! ## Claim C7 -/

/-- C7: after a completed pass over any sequence of spill-slot
allocations, the hasError query reports true exactly when some
allocation exceeded the fixed budget; the high-water tracking itself
is total (slot exhaustion never aborts the pass). -/
theorem hasError_iff_budget_exceeded :
    ∀ slotsUsed : List Nat,
      hasError (maxUsedSlot slotsUsed) = true ↔
        ∃ s ∈ slotsUsed, kSpillSlots < s := by
  intro l
  unfold hasError
  rw [decide_eq_true_eq]
  exact lt_maxUsedSlot_iff kSpillSlots l

/-! ## Claim C8 -/

/-- State of one block's lowering at `finishBlock` time, together with
the control-flow-graph facts its assertions query. -/
structure FinishBlockInput where
  /-- Pending spilled values, `regs.spills`. -/
  spills : List Nat
  /-- Index of the block just lowered, `function.getBlockIndex(curr)`. -/
  currIndex : Nat
  /-- Values of `predecessors(function.cfg, function.getBlockIndex(next))`. -/
  nextPreds : List Nat
  /-- Use count of the next block, `next.useCount`. -/
  nextUseCount : Nat

/-- Model of `IrLoweringX64::finishBlock` (IrLoweringX64.cpp:1618-1629)
as the predicate its `LUAU_ASSERT`s check: when spills remain pending,
every predecessor of the physically next block must be the current
block and the next block's use count must be 1; both checks are
skipped when the spill set is empty. -/
def finishBlockAssertsPass (s : FinishBlockInput) : Bool :=
  if s.spills.isEmpty then true
  else s.nextPreds.all (fun p => p == s.currIndex) && (s.nextUseCount == 1)

/-- The claim's phrasing of the invariant, written from the spec's
words: a block that completes with still-pending spills must be
followed physically by its join-free continuation — every predecessor
of the next block is the current block and the next block's use count
is exactly 1. -/
def joinFreeContinuation (s : FinishBlockInput) : Prop :=
  s.spills ≠ [] → ((∀ p ∈ s.nextPreds, p = s.currIndex) ∧ s.nextUseCount = 1)

/-- C8: the consistency check that finishBlock performs passes exactly
when the claim's invariant holds: pending spills force the physically
next block to be a join-free continuation of the current block (all
its predecessors are the current block and its use count is 1). -/
theorem finishBlock_invariant :
    ∀ s : FinishBlockInput,
      finishBlockAssertsPass s = true ↔ joinFreeContinuation s := by
  intro s
  unfold finishBlockAssertsPass joinFreeContinuation
  by_cases h : s.spills.isEmpty
  · simp [h, List.isEmpty_iff.mp h]
  · have hne : s.spills ≠ [] := by
      intro hcon
      exact h (by simp [hcon])
    simp [h, hne, List.all_eq_true]

/-! ## Claim C9 -/

/-- Register-allocator occupancy state consulted by the CALL and
RETURN cases: which machine registers still hold live values and which
spill slots are occupied.  Modelled from the spec's register-allocation
state description (`IrRegAllocX64.cpp` is outside the lowering
source). -/
structure RegAllocState where
  /-- Occupancy of the general-purpose registers. -/
  gprOccupied : List Bool
  /-- Occupancy of the vector registers. -/
  xmmOccupied : List Bool
  /-- Occupied spill slots. -/
  spills : List Nat

/-- Modelled from the spec: `IrRegAllocX64::assertAllFree` asserts
that no machine register currently holds a live value. -/
def assertAllFree (s : RegAllocState) : Bool :=
  s.gprOccupied.all (fun b => !b) && s.xmmOccupied.all (fun b => !b)

/-- Modelled from the spec: `IrRegAllocX64::assertNoSpills` asserts
that no spill slot is occupied. -/
def assertNoSpills (s : RegAllocState) : Bool := s.spills.isEmpty

/-- Model of the `IrCmd::CALL` and `IrCmd::RETURN` cases
(IrLoweringX64.cpp:1242-1251): both call `regs.assertAllFree()` and
`regs.assertNoSpills()` before emitting the call/return body through
`emitInstCall`/`emitInstReturn`; lowering proceeds (`some`) only when
both checks pass and hits the fatal assertion (`none`) otherwise. -/
def lowerCallOrReturn (s : RegAllocState) : Option Unit :=
  if assertAllFree s && assertNoSpills s then some () else none

/-- C9: lowering of CALL and RETURN proceeds past its assertions
exactly when the register-allocation state is fully clean: every
machine register is free and no spill slot is occupied. -/
theorem lowerCallOrReturn_requires_clean_state :
    ∀ s : RegAllocState,
      (lowerCallOrReturn s).isSome ↔
        ((∀ b ∈ s.gprOccupied, b = false) ∧
         (∀ b ∈ s.xmmOccupied, b = false) ∧
         s.spills = []) := by
  intro s
  unfold lowerCallOrReturn assertAllFree assertNoSpills
  by_cases hg : ∀ b ∈ s.gprOccupied, b = false <;>
    by_cases hx : ∀ b ∈ s.xmmOccupied, b = false <;>
      by_cases hs : s.spills = [] <;>
        simp [hg, hx, hs, List.all_eq_true, List.isEmpty_iff]

/-! ## Floating modulo (MOD_NUM) -/

/-- Model of the `IrCmd::MOD_NUM` lowering (IrLoweringX64.cpp:426-466).
Both operand paths emit the same arithmetic:
`vdivsd tmp, lhs, b; vroundsd tmp, tmp, RoundToNegativeInfinity;
vmulsd tmp, tmp, b; vsubsd dst, lhs, tmp`, i.e. a - floor(a/b)*b.
Each scalar double operation is modelled exactly over ℚ (the claim
itself appeals to exactness only "within floating-point rounding");
`vroundsd` toward negative infinity is exact floor. -/
def modNumLowered (a b : ℚ) : ℚ := a - ⌊a / b⌋ * b

/-! ## Claim C2 -/

/-- C2 counterexample: with a = 2 and b = 1 (so b ≠ 0 and b is
positive) the lowered modulo result is 0, which is not positive, so
the result does not have the same sign as b. -/
theorem modNum_sign_counterexample :
    (1 : ℚ) ≠ 0 ∧ 0 < (1 : ℚ) ∧
      modNumLowered 2 1 = 0 ∧ ¬ 0 < modNumLowered 2 1 := by
  refine ⟨by norm_num, by norm_num, ?_, ?_⟩ <;>
    norm_num [modNumLowered]

/-- C2 (amended): the MOD_NUM lowering computes the flooring modulo
a - floor(a/b)*b; for b ≠ 0 the reconstruction identity
a = floor(a/b)*b + result holds exactly, and the result is zero or has
the same sign as b (0 ≤ r < b for positive b, b < r ≤ 0 for negative
b). -/
theorem modNum_flooring_semantics (a b : ℚ) (hb : b ≠ 0) :
    a = ⌊a / b⌋ * b + modNumLowered a b ∧
    (0 < b → 0 ≤ modNumLowered a b ∧ modNumLowered a b < b) ∧
    (b < 0 → b < modNumLowered a b ∧ modNumLowered a b ≤ 0) := by
  have key : modNumLowered a b = b * Int.fract (a / b) := by
    unfold modNumLowered Int.fract
    field_simp
    ring
  have hfr0 : 0 ≤ Int.fract (a / b) := Int.fract_nonneg _
  have hfr1 : Int.fract (a / b) < 1 := Int.fract_lt_one _
  refine ⟨by unfold modNumLowered; ring, ?_, ?_⟩
  · intro hbpos
    constructor
    · rw [key]
      exact mul_nonneg (le_of_lt hbpos) hfr0
    · rw [key]
      calc b * Int.fract (a / b) < b * 1 :=
            (mul_lt_mul_left hbpos).mpr hfr1
        _ = b := mul_one b
  · intro hbneg
    constructor
    · rw [key]
      calc b = b * 1 := (mul_one b).symm
        _ < b * Int.fract (a / b) := by
            apply (mul_lt_mul_left_of_neg hbneg).mpr
            exact hfr1
    · rw [key]
      exact mul_nonpos_of_nonpos_of_nonneg (le_of_lt hbneg) hfr0

/-- Witness for C2: instantiates the amended theorem at a = 5, b = 3
(flooring modulo 2). -/
theorem modNum_flooring_semantics_witness :
    (3 : ℚ) ≠ 0 ∧
      ((5 : ℚ) = ⌊(5 : ℚ) / 3⌋ * 3 + modNumLowered 5 3 ∧
       (0 < (3 : ℚ) → 0 ≤ modNumLowered 5 3 ∧ modNumLowered 5 3 < 3) ∧
       ((3 : ℚ) < 0 → 3 < modNumLowered 5 3 ∧ modNumLowered 5 3 ≤ 0)) :=
  ⟨by norm_num, modNum_flooring_semantics 5 3 (by norm_num)⟩

/-! ## Two-way branch lowering -/

inductive CondX64 where
  | Equal
  | NotEqual
  | Less
  deriving DecidableEq

/-- A branch instruction in the emitted stream (the preceding `cmp` or
`test` is elided: the claims are about branch shape only). -/
inductive BranchInsn where
  | jcc (cond : CondX64) (target : Nat)
  | jmp (target : Nat)
  deriving DecidableEq

/-- A block as the branch emission sees it: its start position
(`block.start`, used by `isFallthroughBlock`) and its native label. -/
structure BlockRef where
  start : Nat
  label : Nat
  deriving DecidableEq

/-- Model of `IrLoweringX64::isFallthroughBlock`
(IrLoweringX64.cpp:1667-1670): `target.start == next.start`. -/
def isFallthroughBlock (target next : BlockRef) : Bool :=
  target.start == next.start

/-- Model of `IrLoweringX64::jumpOrFallthrough`
(IrLoweringX64.cpp:1701-1705): emit an unconditional jump unless the
target is the physically next block. -/
def jumpOrFallthrough (target next : BlockRef) : List BranchInsn :=
  if isFallthroughBlock target next then [] else [BranchInsn.jmp target.label]

/-- Model of the branch part of the `IrCmd::JUMP_EQ_TAG` lowering
(IrLoweringX64.cpp:636-657): after the `cmp`, if the not-equal target
d is the fallthrough block, emit `jcc Equal` to the equal target c and
fall through to d; otherwise emit `jcc NotEqual` to d and jump or fall
through to c. -/
def lowerJumpEqTag (c d next : BlockRef) : List BranchInsn :=
  if isFallthroughBlock d next then
    BranchInsn.jcc CondX64.Equal c.label :: jumpOrFallthrough d next
  else
    BranchInsn.jcc CondX64.NotEqual d.label :: jumpOrFallthrough c next

/-- Model of the branch part of the `IrCmd::JUMP_LT_INT` lowering
(IrLoweringX64.cpp:682-687): unconditionally `jcc Less` to the
less-than target c, then jump or fall through to d; there is no
fallthrough-based selection of the branched outcome. -/
def lowerJumpLtInt (c d next : BlockRef) : List BranchInsn :=
  BranchInsn.jcc CondX64.Less c.label :: jumpOrFallthrough d next

def countJcc (l : List BranchInsn) : Nat :=
  l.countP (fun i => match i with | BranchInsn.jcc _ _ => true | _ => false)

def hasJmpTo (l : List BranchInsn) (t : Nat) : Bool :=
  l.any (fun i => i == BranchInsn.jmp t)

def jccTargets (l : List BranchInsn) : List Nat :=
  l.filterMap (fun i => match i with
    | BranchInsn.jcc _ t => some t
    | _ => none)

/-- The claim's property, written from its words, for a two-way branch
with true-outcome target c and false-outcome target d: the emitted
code contains exactly one conditional branch, no unconditional branch
to the fallthrough target, and every conditional branch targets an
outcome whose block is not the fallthrough block. -/
def branchSelectionClaim (emitted : List BranchInsn) (c d next : BlockRef) : Prop :=
  countJcc emitted = 1 ∧
  hasJmpTo emitted next.label = false ∧
  ∀ t ∈ jccTargets emitted,
    (t = c.label ∧ isFallthroughBlock c next = false) ∨
    (t = d.label ∧ isFallthroughBlock d next = false)

instance (emitted : List BranchInsn) (c d next : BlockRef) :
    Decidable (branchSelectionClaim emitted c d next) := by
  unfold branchSelectionClaim; infer_instance

/-! ## Claim C6 -/

/-- C6 counterexample: for JUMP_LT_INT with the true (less-than)
target being the physically next block (start 7, label 100) and the
false target elsewhere (start 9, label 200), the emitted code is
`jcc Less 100; jmp 200`: the conditional branch targets the
fallthrough outcome, refuting "the conditional branch is always
emitted on the non-fallthrough outcome". -/
theorem jumpLtInt_branch_counterexample :
    lowerJumpLtInt ⟨7, 100⟩ ⟨9, 200⟩ ⟨7, 100⟩ =
      [BranchInsn.jcc CondX64.Less 100, BranchInsn.jmp 200] ∧
    isFallthroughBlock ⟨7, 100⟩ ⟨7, 100⟩ = true ∧
    ¬ branchSelectionClaim (lowerJumpLtInt ⟨7, 100⟩ ⟨9, 200⟩ ⟨7, 100⟩)
        ⟨7, 100⟩ ⟨9, 200⟩ ⟨7, 100⟩ := by
  refine ⟨by decide, by decide, by decide⟩

/-- C6 (amended): JUMP_EQ_TAG selects the branched outcome by
fallthrough position, so with exactly one fallthrough outcome it emits
exactly one conditional branch, on the non-fallthrough outcome, and no
unconditional branch; JUMP_LT_INT always branches on the true outcome,
so the selection property holds when the false target is the
fallthrough block, while with a fallthrough true target it emits the
conditional branch to the fallthrough outcome followed by an
unconditional jump to the false target. -/
theorem branch_selection_semantics :
    ∀ c d next : BlockRef,
      (isFallthroughBlock d next = true → isFallthroughBlock c next = false →
        branchSelectionClaim (lowerJumpEqTag c d next) c d next ∧
        branchSelectionClaim (lowerJumpLtInt c d next) c d next) ∧
      (isFallthroughBlock c next = true → isFallthroughBlock d next = false →
        branchSelectionClaim (lowerJumpEqTag c d next) c d next ∧
        lowerJumpLtInt c d next =
          [BranchInsn.jcc CondX64.Less c.label, BranchInsn.jmp d.label]) := by
  intro c d next
  constructor
  · intro hd hc
    constructor
    · unfold branchSelectionClaim lowerJumpEqTag jumpOrFallthrough
      rw [hd]
      simp [countJcc, hasJmpTo, jccTargets, hc]
    · unfold branchSelectionClaim lowerJumpLtInt jumpOrFallthrough
      rw [hd]
      simp [countJcc, hasJmpTo, jccTargets, hc]
  · intro hc hd
    constructor
    · unfold branchSelectionClaim lowerJumpEqTag jumpOrFallthrough
      rw [hd, hc]
      simp [countJcc, hasJmpTo, jccTargets, hd]
    · unfold lowerJumpLtInt jumpOrFallthrough
      rw [hd]
      simp

/-- Witness for C6: instantiates the amended theorem with block starts
3 (fallthrough for the false target) and 5. -/
theorem branch_selection_semantics_witness :
    isFallthroughBlock ⟨3, 100⟩ ⟨3, 100⟩ = true ∧
    isFallthroughBlock ⟨5, 200⟩ ⟨3, 100⟩ = false ∧
    (branchSelectionClaim (lowerJumpEqTag ⟨5, 200⟩ ⟨3, 100⟩ ⟨3, 100⟩)
        ⟨5, 200⟩ ⟨3, 100⟩ ⟨3, 100⟩ ∧
     branchSelectionClaim (lowerJumpLtInt ⟨5, 200⟩ ⟨3, 100⟩ ⟨3, 100⟩)
        ⟨5, 200⟩ ⟨3, 100⟩ ⟨3, 100⟩) :=
  ⟨by decide, by decide,
    (branch_selection_semantics ⟨5, 200⟩ ⟨3, 100⟩ ⟨3, 100⟩).1
      (by decide) (by decide)⟩

/-! ## VM-exit trampoline labels -/

/-- An exit handler record (declared in `IrLoweringX64.h`): the
out-of-line trampoline label and the resume program-counter position. -/
structure ExitHandler where
  selfLabel : Nat
  pcpos : Nat
  deriving DecidableEq

/-- Modelled from the spec: the reserved program-counter sentinel
denoting "exit to the interpreter clearing the native-execution flag"
(`kVmExitEntryGuardPc`, defined in the CodeGen headers outside the
lowering source).  The lowering relies only on it being one
distinguished value. -/
def kVmExitEntryGuardPc : Nat := 4294967295

/-- Label id of the shared `helpers.exitContinueVmClearNativeFlag`
trampoline, bound before lowering begins. -/
def exitContinueVmClearNativeFlagLabel : Nat := 1

/-- The per-function exit-trampoline state: the dedup index map
`exitHandlerMap` (position to handler index), the accumulated
`exitHandlers` list, and the assembly builder's fresh-label counter
(label ids start above the pre-bound shared trampoline label; id 0
means unbound). -/
structure ExitLabelState where
  exitHandlerMap : List (Nat × Nat)
  exitHandlers : List ExitHandler
  nextLabelId : Nat

def initExitLabelState : ExitLabelState := ⟨[], [], 2⟩

/-- Association-list model of the `DenseHashMap` keyed by pcpos. -/
def lookupPc : List (Nat × Nat) → Nat → Option Nat
  | [], _ => none
  | e :: rest, p => if e.1 = p then some e.2 else lookupPc rest p

/-- Model of resolving one VM-exit control-flow edge:
`getTargetLabel` (IrLoweringX64.cpp:1672-1690) followed by the branch
emission that binds a fresh label id, followed by
`finalizeTargetLabel` (IrLoweringX64.cpp:1692-1699).  The sentinel
position returns the shared clear-native-flag trampoline and leaves
the handler table untouched (the fresh label stays unbound, so
finalizeTargetLabel records nothing); a position already present in
the dedup map returns that handler's label; otherwise the freshly
bound label is recorded as a new exit handler indexed by position. -/
def resolveVmExit (s : ExitLabelState) (pcpos : Nat) : Nat × ExitLabelState :=
  if pcpos = kVmExitEntryGuardPc then
    (exitContinueVmClearNativeFlagLabel, s)
  else
    match lookupPc s.exitHandlerMap pcpos with
    | some i => (((s.exitHandlers[i]?).map ExitHandler.selfLabel).getD 0, s)
    | none =>
      (s.nextLabelId,
        ⟨(pcpos, s.exitHandlers.length) :: s.exitHandlerMap,
         s.exitHandlers ++ [⟨s.nextLabelId, pcpos⟩],
         s.nextLabelId + 1⟩)

/-- Resolution of a whole sequence of VM-exit edges, in program
order. -/
def resolveAll : List Nat → ExitLabelState → List Nat × ExitLabelState
  | [], s => ([], s)
  | p :: ps, s =>
    let r := resolveVmExit s p
    let rest := resolveAll ps r.2
    (r.1 :: rest.1, rest.2)

/-- Well-formedness invariant of the exit-trampoline state: the label
counter tracks the handler count, handler i carries label 2 + i and a
non-sentinel position, and every map entry points at a handler with
the matching position. -/
def ExitInv (s : ExitLabelState) : Prop :=
  s.nextLabelId = 2 + s.exitHandlers.length ∧
  (∀ i : Nat, ∀ hh : ExitHandler, s.exitHandlers[i]? = some hh →
      hh.selfLabel = 2 + i ∧ hh.pcpos ≠ kVmExitEntryGuardPc) ∧
  (∀ p i : Nat, lookupPc s.exitHandlerMap p = some i →
      ∃ hh : ExitHandler, s.exitHandlers[i]? = some hh ∧ hh.pcpos = p)

theorem exitInv_init : ExitInv initExitLabelState := by
  refine ⟨rfl, ?_, ?_⟩ <;> intro _ _ h <;>
    simp [initExitLabelState, lookupPc] at h

theorem resolve_sentinel (s : ExitLabelState) :
    resolveVmExit s kVmExitEntryGuardPc =
      (exitContinueVmClearNativeFlagLabel, s) := by
  simp [resolveVmExit]

theorem resolve_of_lookup (s : ExitLabelState) (p i : Nat)
    (hInv : ExitInv s) (hp : p ≠ kVmExitEntryGuardPc)
    (hl : lookupPc s.exitHandlerMap p = some i) :
    resolveVmExit s p = (2 + i, s) := by
  obtain ⟨hh, hget, hpc⟩ := hInv.2.2 p i hl
  have hlab := (hInv.2.1 i hh hget).1
  simp [resolveVmExit, hp, hl, hget, hlab]

theorem resolve_of_none (s : ExitLabelState) (p : Nat)
    (hp : p ≠ kVmExitEntryGuardPc)
    (hl : lookupPc s.exitHandlerMap p = none) :
    resolveVmExit s p =
      (s.nextLabelId,
        ⟨(p, s.exitHandlers.length) :: s.exitHandlerMap,
         s.exitHandlers ++ [⟨s.nextLabelId, p⟩],
         s.nextLabelId + 1⟩) := by
  simp [resolveVmExit, hp, hl]

theorem getElem_lt_of_some {l : List ExitHandler} {i : Nat} {hh : ExitHandler}
    (h : l[i]? = some hh) : i < l.length := by
  by_contra hge
  rw [List.getElem?_eq_none (by omega)] at h
  exact Option.noConfusion h

theorem exitInv_step (s : ExitLabelState) (p : Nat) (hInv : ExitInv s) :
    ExitInv (resolveVmExit s p).2 := by
  by_cases hp : p = kVmExitEntryGuardPc
  · rw [hp, resolve_sentinel]; exact hInv
  · cases hl : lookupPc s.exitHandlerMap p with
    | some i => rw [resolve_of_lookup s p i hInv hp hl]; exact hInv
    | none =>
      rw [resolve_of_none s p hp hl]
      refine ⟨?_, ?_, ?_⟩
      · simp only [List.length_append, List.length_cons, List.length_nil]
        have h1 := hInv.1
        omega
      · intro i hh hget
        simp only at hget
        rcases Nat.lt_trichotomy i s.exitHandlers.length with hlt | heq | hgt
        · rw [List.getElem?_append_left hlt] at hget
          exact hInv.2.1 i hh hget
        · subst heq
          rw [List.getElem?_concat_length] at hget
          cases hget
          exact ⟨hInv.1, hp⟩
        · rw [List.getElem?_eq_none (by simp; omega)] at hget
          exact Option.noConfusion hget
      · intro q i hq
        simp only at hq
        by_cases hqp : p = q
        · subst hqp
          simp only [lookupPc, if_pos rfl] at hq
          cases hq
          refine ⟨⟨s.nextLabelId, p⟩, ?_, rfl⟩
          simp only
          rw [List.getElem?_concat_length]
        · simp only [lookupPc, if_neg hqp] at hq
          obtain ⟨hh, hget, hpc⟩ := hInv.2.2 q i hq
          refine ⟨hh, ?_, hpc⟩
          simp only
          rw [List.getElem?_append_left (getElem_lt_of_some hget)]
          exact hget

theorem lookup_mono_step (s : ExitLabelState) (q p i : Nat)
    (h : lookupPc s.exitHandlerMap p = some i) :
    lookupPc ((resolveVmExit s q).2).exitHandlerMap p = some i := by
  by_cases hq : q = kVmExitEntryGuardPc
  · rw [hq, resolve_sentinel]; exact h
  · cases hl : lookupPc s.exitHandlerMap q with
    | some j =>
      rw [resolveVmExit, if_neg hq, hl]
      exact h
    | none =>
      rw [resolve_of_none s q hq hl]
      have hqp : q ≠ p := by
        intro hcon; rw [hcon, h] at hl; exact Option.noConfusion hl
      simp only [lookupPc, if_neg hqp]
      exact h

theorem exitInv_resolveAll (ps : List Nat) (s : ExitLabelState)
    (hInv : ExitInv s) : ExitInv (resolveAll ps s).2 := by
  induction ps generalizing s with
  | nil => exact hInv
  | cons a ps ih => exact ih _ (exitInv_step s a hInv)

theorem lookup_mono_resolveAll (ps : List Nat) (s : ExitLabelState)
    (p i : Nat) (h : lookupPc s.exitHandlerMap p = some i) :
    lookupPc ((resolveAll ps s).2).exitHandlerMap p = some i := by
  induction ps generalizing s with
  | nil => exact h
  | cons a ps ih => exact ih _ (lookup_mono_step s a p i h)

theorem resolve_assigns (s : ExitLabelState) (p : Nat)
    (hInv : ExitInv s) (hp : p ≠ kVmExitEntryGuardPc) :
    ∃ i, (resolveVmExit s p).1 = 2 + i ∧
      lookupPc ((resolveVmExit s p).2).exitHandlerMap p = some i := by
  cases hl : lookupPc s.exitHandlerMap p with
  | some i =>
    rw [resolve_of_lookup s p i hInv hp hl]
    exact ⟨i, rfl, hl⟩
  | none =>
    rw [resolve_of_none s p hp hl]
    exact ⟨s.exitHandlers.length, by simp [hInv.1], by simp [lookupPc]⟩

/-! ## Claim C5 -/

/-- C5: among VM-exit edges resolved during one function's lowering,
two edges with the same resume position get the identical trampoline
label no matter how many other edges are resolved in between, edges
with different (non-sentinel) resume positions get distinct labels,
and the entry-guard sentinel always resolves to the shared
clear-native-flag trampoline, leaves the state untouched, and never
appears as an exit handler record. -/
theorem exitTrampoline_dedup :
    ∀ ps qs : List Nat, ∀ p q : Nat,
      p ≠ kVmExitEntryGuardPc → q ≠ kVmExitEntryGuardPc →
      (((p = q →
          (resolveVmExit ((resolveAll qs
              ((resolveVmExit ((resolveAll ps initExitLabelState).2) p).2)).2) q).1 =
            (resolveVmExit ((resolveAll ps initExitLabelState).2) p).1) ∧
        (p ≠ q →
          (resolveVmExit ((resolveAll qs
              ((resolveVmExit ((resolveAll ps initExitLabelState).2) p).2)).2) q).1 ≠
            (resolveVmExit ((resolveAll ps initExitLabelState).2) p).1))) ∧
      ((resolveVmExit ((resolveAll ps initExitLabelState).2) kVmExitEntryGuardPc).1 =
          exitContinueVmClearNativeFlagLabel ∧
        (resolveVmExit ((resolveAll ps initExitLabelState).2) kVmExitEntryGuardPc).2 =
          (resolveAll ps initExitLabelState).2 ∧
        ∀ hh ∈ ((resolveAll ps initExitLabelState).2).exitHandlers,
          hh.pcpos ≠ kVmExitEntryGuardPc) := by
  intro ps qs p q hp hq
  have hInv1 : ExitInv (resolveAll ps initExitLabelState).2 :=
    exitInv_resolveAll ps initExitLabelState exitInv_init
  constructor
  · obtain ⟨i, hlab1, hlook1⟩ :=
      resolve_assigns ((resolveAll ps initExitLabelState).2) p hInv1 hp
    have hInv2 : ExitInv ((resolveAll qs
        ((resolveVmExit ((resolveAll ps initExitLabelState).2) p).2)).2) :=
      exitInv_resolveAll qs _
        (exitInv_step ((resolveAll ps initExitLabelState).2) p hInv1)
    have hlook2 : lookupPc ((resolveAll qs
        ((resolveVmExit ((resolveAll ps initExitLabelState).2) p).2)).2).exitHandlerMap
        p = some i :=
      lookup_mono_resolveAll qs _ p i hlook1
    constructor
    · intro hpq
      subst hpq
      rw [resolve_of_lookup _ p i hInv2 hp hlook2, hlab1]
    · intro hne
      cases hql : lookupPc ((resolveAll qs
          ((resolveVmExit ((resolveAll ps initExitLabelState).2) p).2)).2).exitHandlerMap
          q with
      | some j =>
        rw [resolve_of_lookup _ q j hInv2 hq hql, hlab1]
        intro heq
        have hij : j = i := by omega
        subst hij
        obtain ⟨hhq, hgq, hpcq⟩ := hInv2.2.2 q j hql
        obtain ⟨hhp, hgp, hpcp⟩ := hInv2.2.2 p j hlook2
        rw [hgq] at hgp
        cases hgp
        exact hne (hpcp ▸ hpcq.symm ▸ rfl)
      | none =>
        rw [resolve_of_none _ q hq hql]
        obtain ⟨hhp, hgp, hpcp⟩ := hInv2.2.2 p i hlook2
        have hilt := getElem_lt_of_some hgp
        rw [hInv2.1, hlab1]
        simp only
        omega
  · refine ⟨by rw [resolve_sentinel], by rw [resolve_sentinel], ?_⟩
    intro hh hmem
    obtain ⟨i, hi⟩ := List.mem_iff_getElem?.mp hmem
    exact (hInv1.2.1 i hh hi).2

/-- Witness for C5: two resolutions of position 10, separated by a
resolution of position 20, yield the same trampoline label. -/
theorem exitTrampoline_dedup_witness :
    (10 : Nat) ≠ kVmExitEntryGuardPc ∧
    (resolveVmExit ((resolveAll [20]
        ((resolveVmExit ((resolveAll [5] initExitLabelState).2) 10).2)).2) 10).1 =
      (resolveVmExit ((resolveAll [5] initExitLabelState).2) 10).1 :=
  ⟨by decide,
    ((exitTrampoline_dedup [5] [20] 10 10 (by decide) (by decide)).1).1 rfl⟩

/-! ## Exact binary64 model

Finite IEEE-754 binary64 values are modelled as exact rationals, and
the rounding performed by the hardware addition as an executable
round-to-nearest-ties-to-even function onto the binary64 grid.  This
is needed because the ROUND_NUM claim is precisely about the rounding
of the addition `x + 0.49999999999999994`: over exact arithmetic
round(0.5) would be 0, and only the IEEE rounding of the sum makes it
1. -/

/-- A finite IEEE-754 binary64 value as an exact rational: m·2^e with
|m| < 2^53, e ≥ -1074 (subnormals included) and e ≤ 971 (so magnitudes
stay within the format's largest finite value). -/
def FiniteDouble (x : ℚ) : Prop :=
  ∃ m e : ℤ, x = (m : ℚ) * 2 ^ e ∧ m.natAbs < 2 ^ 53 ∧ -1074 ≤ e ∧ e ≤ 971

/-- Exponent of the binary64 rounding grid at magnitude |q|: the unit
in the last place of q is 2^(flExp q). -/
def flExp (q : ℚ) : ℤ := max (Int.log 2 |q| - 52) (-1074)

/-- Round a rational to the nearest integer, ties to even. -/
def rndNE (r : ℚ) : ℤ :=
  if Int.fract r < 1/2 then ⌊r⌋
  else if 1/2 < Int.fract r then ⌊r⌋ + 1
  else if Even ⌊r⌋ then ⌊r⌋ else ⌊r⌋ + 1

/-- IEEE round-to-nearest-even of an exact value onto the binary64
grid; faithful to the hardware result for all operations whose exact
result does not overflow the format. -/
def fl (q : ℚ) : ℚ := (rndNE (q * 2 ^ (-flExp q)) : ℚ) * 2 ^ flExp q

/-- Truncation toward zero of a rational, as an integer. -/
def truncQ (q : ℚ) : ℤ := if 0 ≤ q then ⌊q⌋ else -⌊-q⌋

/-! ### Integer-plus-fraction decompositions -/

theorem floor_fract_of_add (k : ℤ) (s : ℚ) (h0 : 0 ≤ s) (h1 : s < 1) :
    ⌊(k : ℚ) + s⌋ = k ∧ Int.fract ((k : ℚ) + s) = s := by
  constructor
  · rw [Int.floor_int_add, Int.floor_eq_zero_iff.mpr (Set.mem_Ico.mpr ⟨h0, h1⟩),
      add_zero]
  · rw [Int.fract_int_add, Int.fract_eq_self.mpr ⟨h0, h1⟩]

theorem rndNE_int_add (k : ℤ) (s : ℚ) (h0 : 0 ≤ s) (h1 : s < 1/2) :
    rndNE ((k : ℚ) + s) = k := by
  obtain ⟨hf, hs⟩ := floor_fract_of_add k s h0 (by linarith)
  unfold rndNE
  rw [hs, hf, if_pos h1]

theorem rndNE_upper (k : ℤ) (s : ℚ) (h0 : 1/2 < s) (h1 : s < 1) :
    rndNE ((k : ℚ) + s) = k + 1 := by
  obtain ⟨hf, hs⟩ := floor_fract_of_add k s (by linarith) h1
  unfold rndNE
  rw [hs, hf, if_neg (by linarith), if_pos h0]

theorem rndNE_intCast (k : ℤ) : rndNE ((k : ℚ)) = k := by
  have := rndNE_int_add k 0 le_rfl (by norm_num)
  simpa using this

theorem rndNE_int_sub (k : ℤ) (s : ℚ) (h0 : 0 < s) (h1 : s < 1/2) :
    rndNE ((k : ℚ) - s) = k := by
  have hrw : (k : ℚ) - s = ((k - 1 : ℤ) : ℚ) + (1 - s) := by push_cast; ring
  rw [hrw, rndNE_upper (k - 1) (1 - s) (by linarith) (by linarith)]
  omega

theorem rndNE_tie (k : ℤ) :
    rndNE ((k : ℚ) + 1/2) = if Even k then k else k + 1 := by
  obtain ⟨hf, hs⟩ := floor_fract_of_add k (1/2) (by norm_num) (by norm_num)
  unfold rndNE
  rw [hs, hf, if_neg (by norm_num), if_neg (by norm_num)]

theorem rndNE_tie_even (k : ℤ) (he : Even k) :
    rndNE ((k : ℚ) - 1/2) = k := by
  have hrw : (k : ℚ) - 1/2 = ((k - 1 : ℤ) : ℚ) + 1/2 := by push_cast; ring
  have hodd : ¬ Even (k - 1) := by
    simp only [Int.even_iff] at he ⊢
    omega
  rw [hrw, rndNE_tie, if_neg hodd]
  omega

theorem rndNE_err (r : ℚ) : |(rndNE r : ℚ) - r| ≤ 1/2 := by
  have h0 := Int.fract_nonneg r
  have h1 := Int.fract_lt_one r
  have hr : (⌊r⌋ : ℚ) + Int.fract r = r := Int.floor_add_fract r
  unfold rndNE
  split_ifs with hlt hgt hev <;>
    · rw [abs_le]
      constructor <;> push_cast <;> linarith

theorem rndNE_neg (r : ℚ) : rndNE (-r) = - rndNE r := by
  obtain ⟨k, s, hks, h0, h1⟩ :
      ∃ (k : ℤ) (s : ℚ), r = (k : ℚ) + s ∧ 0 ≤ s ∧ s < 1 :=
    ⟨⌊r⌋, Int.fract r, (Int.floor_add_fract r).symm,
      Int.fract_nonneg r, Int.fract_lt_one r⟩
  subst hks
  by_cases hs0 : s = 0
  · subst hs0
    rw [add_zero]
    have h2 : -((k : ℚ)) = ((-k : ℤ) : ℚ) := by push_cast; ring
    rw [h2, rndNE_intCast, rndNE_intCast]
  · have hs0' : 0 < s := lt_of_le_of_ne h0 (Ne.symm hs0)
    rcases lt_trichotomy s (1/2) with hlt | heq | hgt
    · have hneg : -((k : ℚ) + s) = ((-k - 1 : ℤ) : ℚ) + (1 - s) := by
        push_cast; ring
      rw [hneg, rndNE_upper _ _ (by linarith) (by linarith),
        rndNE_int_add _ _ h0 hlt]
      omega
    · subst heq
      have hneg : -((k : ℚ) + 1/2) = ((-k - 1 : ℤ) : ℚ) + 1/2 := by
        push_cast; ring
      rw [hneg, rndNE_tie, rndNE_tie]
      by_cases hek : Even k
      · have hodd : ¬ Even (-k - 1) := by
          simp only [Int.even_iff] at hek ⊢
          omega
        rw [if_neg hodd, if_pos hek]
        omega
      · have hev2 : Even (-k - 1) := by
          simp only [Int.even_iff] at hek ⊢
          omega
        rw [if_pos hev2, if_neg hek]
        omega
    · have hneg : -((k : ℚ) + s) = ((-k - 1 : ℤ) : ℚ) + (1 - s) := by
        push_cast; ring
      rw [hneg, rndNE_int_add _ _ (by linarith) (by linarith),
        rndNE_upper _ _ hgt h1]
      omega

/-! ### Properties of the grid rounding -/

theorem two_zpow_pos (e : ℤ) : (0 : ℚ) < 2 ^ e := zpow_pos (by norm_num) e

theorem two_zpow_le (e f : ℤ) (h : e ≤ f) : (2 : ℚ) ^ e ≤ 2 ^ f :=
  zpow_le_zpow_right₀ (by norm_num) h

theorem two_zpow_lt (e f : ℤ) (h : e < f) : (2 : ℚ) ^ e < 2 ^ f :=
  zpow_lt_zpow_right₀ (by norm_num) h

theorem two_zpow_mul (a b : ℤ) : (2 : ℚ) ^ a * 2 ^ b = 2 ^ (a + b) :=
  (zpow_add₀ (by norm_num) a b).symm

theorem fl_err (q : ℚ) : |fl q - q| ≤ 2 ^ (flExp q - 1) := by
  have key : |(rndNE (q * 2 ^ (-flExp q)) : ℚ) - q * 2 ^ (-flExp q)| ≤ 1/2 :=
    rndNE_err _
  have hcalc : fl q - q =
      ((rndNE (q * 2 ^ (-flExp q)) : ℚ) - q * 2 ^ (-flExp q)) * 2 ^ flExp q := by
    unfold fl
    have hinv : q * 2 ^ (-flExp q) * 2 ^ flExp q = q := by
      rw [mul_assoc, two_zpow_mul, neg_add_cancel, zpow_zero, mul_one]
    rw [sub_mul, hinv]
  rw [hcalc, abs_mul, abs_of_pos (two_zpow_pos (flExp q))]
  calc |(rndNE (q * 2 ^ (-flExp q)) : ℚ) - q * 2 ^ (-flExp q)| * 2 ^ flExp q
      ≤ (1/2) * 2 ^ flExp q :=
        mul_le_mul_of_nonneg_right key (two_zpow_pos (flExp q)).le
    _ = 2 ^ (flExp q - 1) := by
        rw [zpow_sub₀ (by norm_num : (2:ℚ) ≠ 0)]
        ring

theorem fl_exists_int (q : ℚ) : ∃ k : ℤ, fl q = (k : ℚ) * 2 ^ flExp q :=
  ⟨rndNE (q * 2 ^ (-flExp q)), rfl⟩

theorem flExp_le (q : ℚ) (k : ℤ) (hq : 0 < q) (h2 : q < 2 ^ (k + 1))
    (hk : -1022 ≤ k) : flExp q ≤ k - 52 := by
  have hlog : Int.log 2 q ≤ k := by
    by_contra hc
    push_neg at hc
    have hh : (2:ℚ) ^ (k + 1) ≤ 2 ^ (Int.log 2 q) := two_zpow_le _ _ (by omega)
    have h3 : (2:ℚ) ^ (Int.log 2 q) ≤ q := Int.zpow_log_le_self (by norm_num) hq
    linarith
  unfold flExp
  rw [abs_of_pos hq]
  omega

theorem flExp_ge (q : ℚ) (k : ℤ) (hq : 0 < q) (h1 : 2 ^ k ≤ q) :
    k - 52 ≤ flExp q := by
  have hlog : k ≤ Int.log 2 q := (Int.zpow_le_iff_le_log (by norm_num) hq).mp h1
  unfold flExp
  rw [abs_of_pos hq]
  omega

theorem flExp_eq (q : ℚ) (k : ℤ) (hq : 0 < q) (h1 : 2 ^ k ≤ q)
    (h2 : q < 2 ^ (k + 1)) (hk : -1022 ≤ k) : flExp q = k - 52 :=
  le_antisymm (flExp_le q k hq h2 hk) (flExp_ge q k hq h1)

theorem flExp_neg (q : ℚ) : flExp (-q) = flExp q := by
  unfold flExp
  rw [abs_neg]

theorem fl_neg (q : ℚ) : fl (-q) = - fl q := by
  unfold fl
  rw [flExp_neg, neg_mul, rndNE_neg]
  push_cast
  ring

theorem truncQ_of_nonneg (q : ℚ) (h : 0 ≤ q) : truncQ q = ⌊q⌋ := if_pos h

theorem truncQ_neg (q : ℚ) : truncQ (-q) = - truncQ q := by
  unfold truncQ
  rcases lt_trichotomy q 0 with h | h | h
  · rw [if_pos (by linarith), if_neg (not_le.mpr h)]
    simp
  · subst h
    norm_num
  · rw [if_neg (by simpa using not_le.mpr h), if_pos h.le]
    simp

theorem finiteDouble_neg (x : ℚ) (h : FiniteDouble x) : FiniteDouble (-x) := by
  obtain ⟨m, e, hx, hm, he1, he2⟩ := h
  exact ⟨-m, e, by rw [hx]; push_cast; ring, by simpa using hm, he1, he2⟩

/-! ### The rounding grid of a finite double -/

/-- Every positive finite double is an integer multiple of its unit in
the last place 2^(log2 x - 52). -/
theorem finiteDouble_grid (x : ℚ) (hfd : FiniteDouble x) (hx : 0 < x) :
    ∃ M : ℤ, x = (M : ℚ) * 2 ^ (Int.log 2 x - 52) := by
  obtain ⟨m, e, hxe, hm, he1, he2⟩ := hfd
  have hmQ : (m : ℚ) < 2 ^ (53 : ℤ) := by
    have hm53 : m ≤ 2 ^ 53 - 1 := by omega
    have h1 : (m : ℚ) ≤ ((2 ^ 53 - 1 : ℤ) : ℚ) := by exact_mod_cast hm53
    have h2 : ((2 ^ 53 - 1 : ℤ) : ℚ) < 2 ^ (53 : ℤ) := by
      push_cast
      rw [show ((53 : ℤ)) = ((53 : ℕ) : ℤ) by norm_num, zpow_natCast]
      norm_num
    linarith
  have hmpos : 0 < m := by
    by_contra hc
    push_neg at hc
    have hq : (m : ℚ) ≤ 0 := by exact_mod_cast hc
    have : x ≤ 0 := by
      rw [hxe]
      exact mul_nonpos_of_nonpos_of_nonneg hq (two_zpow_pos e).le
    linarith
  have hxlt : x < 2 ^ (e + 53) := by
    rw [hxe, ← two_zpow_mul, mul_comm ((2:ℚ) ^ e) (2 ^ (53:ℤ))]
    exact mul_lt_mul_of_pos_right hmQ (two_zpow_pos e)
  have hLle : (2 : ℚ) ^ (Int.log 2 x) ≤ x := Int.zpow_log_le_self (by norm_num) hx
  have hL53 : Int.log 2 x < e + 53 := by
    by_contra hc
    push_neg at hc
    have : (2 : ℚ) ^ (e + 53) ≤ 2 ^ (Int.log 2 x) := two_zpow_le _ _ hc
    linarith
  refine ⟨m * 2 ^ ((e - (Int.log 2 x - 52)).toNat), ?_⟩
  have hd : (0 : ℤ) ≤ e - (Int.log 2 x - 52) := by omega
  have hcast : ((m * 2 ^ ((e - (Int.log 2 x - 52)).toNat) : ℤ) : ℚ) =
      (m : ℚ) * 2 ^ ((e - (Int.log 2 x - 52)) : ℤ) := by
    push_cast
    rw [← zpow_natCast (2 : ℚ), Int.toNat_of_nonneg hd]
  have hexp : (e - (Int.log 2 x - 52)) + (Int.log 2 x - 52) = e := by ring
  rw [hcast, mul_assoc, two_zpow_mul, hexp]
  exact hxe

/-- If an integer multiple of a positive unit is below another such
multiple, it is below by at least one unit. -/
theorem int_mul_le_sub (M B : ℤ) (u : ℚ) (hu : 0 < u)
    (h : (M : ℚ) * u < (B : ℚ) * u) : (M : ℚ) * u ≤ (B : ℚ) * u - u := by
  have hMB : M < B := by
    have := lt_of_mul_lt_mul_right h hu.le
    exact_mod_cast this
  have hle : (M : ℚ) ≤ (B : ℚ) - 1 := by
    have : (M : ℤ) ≤ B - 1 := by omega
    have h2 : (M : ℚ) ≤ ((B - 1 : ℤ) : ℚ) := by exact_mod_cast this
    push_cast at h2
    linarith
  calc (M : ℚ) * u ≤ ((B : ℚ) - 1) * u := mul_le_mul_of_nonneg_right hle hu.le
    _ = (B : ℚ) * u - u := by ring

/-- If an integer multiple of a positive unit is above another such
multiple, it is above by at least one unit. -/
theorem int_mul_add_le (M B : ℤ) (u : ℚ) (hu : 0 < u)
    (h : (B : ℚ) * u < (M : ℚ) * u) : (B : ℚ) * u + u ≤ (M : ℚ) * u := by
  have hBM : B < M := by
    have := lt_of_mul_lt_mul_right h hu.le
    exact_mod_cast this
  have hle : (B : ℚ) + 1 ≤ (M : ℚ) := by
    have : (B : ℤ) + 1 ≤ M := by omega
    have h2 : ((B + 1 : ℤ) : ℚ) ≤ (M : ℚ) := by exact_mod_cast this
    push_cast at h2
    linarith
  calc (B : ℚ) * u + u = ((B : ℚ) + 1) * u := by ring
    _ ≤ (M : ℚ) * u := mul_le_mul_of_nonneg_right hle hu.le

/-! ## Round-to-nearest lowering (ROUND_NUM) -/

/-- The exact rounding constant 0x3FDFFFFFFFFFFFFF =
0.49999999999999994 = 1/2 - 2^-54, the largest double strictly below
1/2 (IrLoweringX64.cpp:538). -/
def kRoundConst : ℚ := 1/2 - 2 ^ (-54 : ℤ)

/-- Copysign of a positive constant c with the sign of x: the model of
`vandpd tmp1, src, [-0.0, -0.0]` (extract the sign bit of src)
followed by `vorpd tmp1, tmp1, tmp2` (install it on the constant in
tmp2, whose own sign bit is clear).  In the rational model the two
signed zeros coincide; either sign of zero yields a sum that truncates
to 0. -/
def copysignPos (c x : ℚ) : ℚ := if x < 0 then -c else c

/-- Model of the `IrCmd::ROUND_NUM` lowering (IrLoweringX64.cpp:525-543):
`vandpd tmp1, src, [-0.0,-0.0]; vmovsd tmp2, 0x3fdfffffffffffff;
vorpd tmp1, tmp1, tmp2; vaddsd dst, src, tmp1;
vroundsd dst, dst, dst, RoundToZero`.
The two bitwise operations are copysignPos, `vaddsd` is the IEEE
addition fl of the exact sum, and `vroundsd` toward zero is exact
truncation (the truncation of any double is exactly representable). -/
def roundNumLowered (x : ℚ) : ℚ :=
  ((truncQ (fl (x + copysignPos kRoundConst x))) : ℚ)

/-- Round half away from zero: the claim's reference rounding rule. -/
def roundHalfAway (x : ℚ) : ℤ :=
  if 0 ≤ x then ⌊x + 1/2⌋ else -⌊-x + 1/2⌋

theorem intLog_eq (q : ℚ) (k : ℤ) (hq : 0 < q) (h1 : 2 ^ k ≤ q)
    (h2 : q < 2 ^ (k + 1)) : Int.log 2 q = k := by
  have hge : k ≤ Int.log 2 q := (Int.zpow_le_iff_le_log (by norm_num) hq).mp h1
  have hle : Int.log 2 q ≤ k := by
    by_contra hc
    push_neg at hc
    have hh : (2:ℚ) ^ (k + 1) ≤ 2 ^ (Int.log 2 q) := two_zpow_le _ _ (by omega)
    have h3 : (2:ℚ) ^ (Int.log 2 q) ≤ q := Int.zpow_log_le_self (by norm_num) hq
    linarith
  omega

theorem intPow_cast (n : ℕ) : (((2 : ℤ) ^ n : ℤ) : ℚ) = (2 : ℚ) ^ ((n : ℤ)) := by
  push_cast
  rw [zpow_natCast]

theorem two_zpow_log_le (q : ℚ) (hq : 0 < q) : (2:ℚ) ^ (Int.log 2 q) ≤ q := by
  have h := Int.zpow_log_le_self (b := 2) (r := q) (by norm_num) hq
  norm_num at h
  exact h

theorem lt_two_zpow_succ_log (q : ℚ) : q < (2:ℚ) ^ (Int.log 2 q + 1) := by
  have h := Int.lt_zpow_succ_log_self (b := 2) (r := q) (by norm_num)
  norm_num at h
  exact h

/-- Case x ≥ 2^52 of the round trick: x is an integer, the addition
rounds back to x, and truncation is the identity. -/
theorem roundTrick_big (x : ℚ) (hfd : FiniteDouble x)
    (hx : (2 : ℚ) ^ (52 : ℤ) ≤ x) :
    truncQ (fl (x + kRoundConst)) = ⌊x + 1/2⌋ := by
  have hx0 : 0 < x := lt_of_lt_of_le (two_zpow_pos 52) hx
  have hL52 : 52 ≤ Int.log 2 x :=
    (Int.zpow_le_iff_le_log (by norm_num) hx0).mp hx
  obtain ⟨M, hxM⟩ := finiteDouble_grid x hfd hx0
  have hxlt : x < 2 ^ (Int.log 2 x + 1) := lt_two_zpow_succ_log x
  have hqlo0 : (2:ℚ) ^ (Int.log 2 x) ≤ x := two_zpow_log_le x hx0
  have hE0 : flExp (x + kRoundConst) = Int.log 2 x - 52 := by
    have h54pos : (0:ℚ) < 2 ^ (-54 : ℤ) := two_zpow_pos _
    have h54small : (2:ℚ) ^ (-54 : ℤ) ≤ 1/4 := by
      have := two_zpow_le (-54) (-2) (by norm_num)
      have h2 : (2:ℚ) ^ (-2 : ℤ) = 1/4 := by norm_num
      linarith
    have hcpos : 0 < kRoundConst := by unfold kRoundConst; linarith
    have hclt : kRoundConst < 1/2 := by unfold kRoundConst; linarith
    have hu : (0:ℚ) < 2 ^ (Int.log 2 x - 52) := two_zpow_pos _
    have hBu : (((2:ℤ) ^ 53 : ℤ) : ℚ) * 2 ^ (Int.log 2 x - 52) =
        2 ^ (Int.log 2 x + 1) := by
      rw [intPow_cast, two_zpow_mul]
      congr 1
      ring
    have hxle : x ≤ 2 ^ (Int.log 2 x + 1) - 2 ^ (Int.log 2 x - 52) := by
      have := int_mul_le_sub M ((2:ℤ) ^ 53) (2 ^ (Int.log 2 x - 52)) hu
        (by rw [hBu, ← hxM]; exact hxlt)
      rw [hBu, ← hxM] at this
      exact this
    have hu1 : (1:ℚ) ≤ 2 ^ (Int.log 2 x - 52) := by
      have := two_zpow_le 0 (Int.log 2 x - 52) (by omega)
      rw [zpow_zero] at this
      exact this
    exact flExp_eq _ (Int.log 2 x) (by linarith) (by linarith) (by linarith)
      (by omega)
  obtain ⟨L, hLdef⟩ : ∃ L : ℤ, Int.log 2 x = L := ⟨_, rfl⟩
  rw [hLdef] at hL52 hxM hxlt hqlo0 hE0
  have h54pos : (0:ℚ) < 2 ^ (-54 : ℤ) := two_zpow_pos _
  have h54small : (2:ℚ) ^ (-54 : ℤ) ≤ 1/4 := by
    have := two_zpow_le (-54) (-2) (by norm_num)
    have h2 : (2:ℚ) ^ (-2 : ℤ) = 1/4 := by norm_num
    linarith
  have hcpos : 0 < kRoundConst := by unfold kRoundConst; linarith
  have hclt : kRoundConst < 1/2 := by unfold kRoundConst; linarith
  have hflq : fl (x + kRoundConst) = x := by
    unfold fl
    rw [hE0]
    have hxE : x * 2 ^ (-(L - 52)) = (M : ℚ) := by
      rw [hxM, mul_assoc, two_zpow_mul]
      norm_num
    have hr : (x + kRoundConst) * 2 ^ (-(L - 52)) =
        (M : ℚ) + kRoundConst * 2 ^ (-(L - 52)) := by
      rw [add_mul, hxE]
    have hdelta0 : 0 < kRoundConst * 2 ^ (-(L - 52)) :=
      mul_pos hcpos (two_zpow_pos _)
    have hdelta1 : kRoundConst * 2 ^ (-(L - 52)) < 1/2 := by
      have hle1 : (2:ℚ) ^ (-(L - 52)) ≤ 1 := by
        have := two_zpow_le (-(L - 52)) 0 (by omega)
        rw [zpow_zero] at this
        exact this
      calc kRoundConst * 2 ^ (-(L - 52)) ≤ kRoundConst * 1 :=
            mul_le_mul_of_nonneg_left hle1 hcpos.le
        _ < 1/2 := by rw [mul_one]; exact hclt
    rw [hr, rndNE_int_add M _ hdelta0.le hdelta1, ← hxM]
  rw [hflq, truncQ_of_nonneg x hx0.le]
  have hd : (0:ℤ) ≤ L - 52 := by omega
  have hNx : x = ((M * 2 ^ ((L - 52).toNat) : ℤ) : ℚ) := by
    rw [hxM]
    push_cast
    rw [← zpow_natCast (2:ℚ), Int.toNat_of_nonneg hd]
  rw [hNx, Int.floor_intCast,
    (floor_fract_of_add _ (1/2) (by norm_num) (by norm_num)).1]

/-- Case 0 ≤ x < 1/2 of the round trick: the sum stays strictly below
1, so truncation gives 0. -/
theorem roundTrick_small (x : ℚ) (hfd : FiniteDouble x) (h0 : 0 ≤ x)
    (h1 : x < 1/2) : truncQ (fl (x + kRoundConst)) = ⌊x + 1/2⌋ := by
  have h54pos : (0:ℚ) < 2 ^ (-54 : ℤ) := two_zpow_pos _
  have h54small : (2:ℚ) ^ (-54 : ℤ) ≤ 1/4 := by
    have := two_zpow_le (-54) (-2) (by norm_num)
    have h2 : (2:ℚ) ^ (-2 : ℤ) = 1/4 := by norm_num
    linarith
  have h53 : (2:ℚ) ^ (-53 : ℤ) = 2 * 2 ^ (-54 : ℤ) := by
    rw [show (-53 : ℤ) = 1 + -54 by norm_num, ← two_zpow_mul]
    norm_num
  have hcpos : 0 < kRoundConst := by unfold kRoundConst; linarith
  have hRHS : ⌊x + 1/2⌋ = 0 :=
    Int.floor_eq_zero_iff.mpr (Set.mem_Ico.mpr ⟨by linarith, by linarith⟩)
  have hqle : x + kRoundConst ≤ 1 - 2 ^ (-53 : ℤ) := by
    rcases lt_or_le x (1/4) with hx4 | hx4
    · unfold kRoundConst
      linarith
    · have hx0 : 0 < x := by linarith
      have hlog : Int.log 2 x = -2 := by
        apply intLog_eq x (-2) hx0
        · norm_num
          linarith
        · norm_num
          linarith
      obtain ⟨M, hxM⟩ := finiteDouble_grid x hfd hx0
      rw [hlog, show (-2 - 52 : ℤ) = -54 by norm_num] at hxM
      have hBu : (((2:ℤ) ^ 53 : ℤ) : ℚ) * 2 ^ (-54 : ℤ) = 1/2 := by
        rw [intPow_cast, two_zpow_mul]
        norm_num
      have hxle : x ≤ 1/2 - 2 ^ (-54 : ℤ) := by
        have := int_mul_le_sub M ((2:ℤ) ^ 53) (2 ^ (-54 : ℤ)) h54pos
          (by rw [hBu, ← hxM]; exact h1)
        rw [hBu, ← hxM] at this
        exact this
      unfold kRoundConst
      linarith
  have hq0 : 0 < x + kRoundConst := by linarith
  have hE : flExp (x + kRoundConst) ≤ -53 := by
    have := flExp_le (x + kRoundConst) (-1) hq0
      (by rw [show (-1 + 1 : ℤ) = 0 by norm_num, zpow_zero]; linarith)
      (by norm_num)
    omega
  have herr : |fl (x + kRoundConst) - (x + kRoundConst)| ≤ 2 ^ (-54 : ℤ) := by
    have h2 := fl_err (x + kRoundConst)
    have h3 : (2:ℚ) ^ (flExp (x + kRoundConst) - 1) ≤ 2 ^ (-54 : ℤ) :=
      two_zpow_le _ _ (by omega)
    linarith
  rw [abs_le] at herr
  have hfl0 : 0 ≤ fl (x + kRoundConst) := by
    unfold kRoundConst at *
    linarith [herr.1]
  have hfl1 : fl (x + kRoundConst) < 1 := by linarith [herr.2]
  rw [truncQ_of_nonneg _ hfl0, hRHS,
    Int.floor_eq_zero_iff.mpr (Set.mem_Ico.mpr ⟨hfl0, hfl1⟩)]

/-- The exact-tie step of the round trick: for an integer 0 ≤ n with
n + 1 ≤ 2^52, the sum (n + 1) - 2^-54 rounds up to n + 1 (for n = 0 it
is the even-tie case between 1 - 2^-53 and 1; for n ≥ 1 it is closer
to n + 1 than to the predecessor). -/
theorem roundTrick_tie (n : ℤ) (hn0 : 0 ≤ n)
    (hn52 : (n : ℚ) + 1 ≤ 2 ^ (52 : ℤ)) :
    fl ((n : ℚ) + 1 - 2 ^ (-54 : ℤ)) = (n : ℚ) + 1 := by
  have h54pos : (0:ℚ) < 2 ^ (-54 : ℤ) := two_zpow_pos _
  have h54small : (2:ℚ) ^ (-54 : ℤ) ≤ 1/4 := by
    have := two_zpow_le (-54) (-2) (by norm_num)
    have h2 : (2:ℚ) ^ (-2 : ℤ) = 1/4 := by norm_num
    linarith
  rcases eq_or_lt_of_le hn0 with hn0' | hn1
  · -- n = 0: the genuine tie, resolved upward because 2^53 is even
    subst hn0'
    have hq0 : (0:ℚ) < ((0:ℤ):ℚ) + 1 - 2 ^ (-54 : ℤ) := by
      have h2 := h54small
      push_cast
      generalize ht : (2:ℚ) ^ (-54:ℤ) = t at h2 ⊢
      linarith
    have hE : flExp (((0:ℤ):ℚ) + 1 - 2 ^ (-54 : ℤ)) = -53 := by
      have h1 : (2:ℚ) ^ (-1 : ℤ) ≤ ((0:ℤ):ℚ) + 1 - 2 ^ (-54 : ℤ) := by
        have h2 := h54small
        rw [show ((2:ℚ) ^ (-1:ℤ)) = 1/2 by norm_num]
        push_cast
        generalize ht : (2:ℚ) ^ (-54:ℤ) = t at h2 ⊢
        linarith
      have h2 : ((0:ℤ):ℚ) + 1 - 2 ^ (-54 : ℤ) < 2 ^ (-1 + 1 : ℤ) := by
        have h3 := h54pos
        rw [show ((2:ℚ) ^ (-1 + 1 : ℤ)) = 1 by norm_num]
        push_cast
        generalize ht : (2:ℚ) ^ (-54:ℤ) = t at h3 ⊢
        linarith
      have h4 := flExp_eq _ (-1) hq0 h1 h2 (by norm_num)
      rw [h4]
      norm_num
    unfold fl
    rw [hE]
    have hexp : (-(-53 : ℤ)) = (53 : ℤ) := by norm_num
    rw [hexp]
    have hr : (((0:ℤ):ℚ) + 1 - 2 ^ (-54 : ℤ)) * 2 ^ (53 : ℤ) =
        (((2:ℤ) ^ 53 : ℤ) : ℚ) - 1/2 := by
      rw [intPow_cast]
      rw [sub_mul, add_mul]
      rw [two_zpow_mul]
      norm_num
    rw [hr, rndNE_tie_even ((2:ℤ) ^ 53) ⟨(2:ℤ) ^ 52, by ring⟩]
    rw [intPow_cast, two_zpow_mul]
    norm_num
  · -- n ≥ 1: the sum is within a quarter ulp below n + 1
    have hn1Q : (1:ℚ) ≤ (n:ℚ) := by exact_mod_cast hn1
    have hq1 : (1:ℚ) < (n:ℚ) + 1 - 2 ^ (-54 : ℤ) := by
      have h2 := h54small
      generalize ht : (2:ℚ) ^ (-54:ℤ) = t at h2 ⊢
      linarith
    have hq0 : (0:ℚ) < (n:ℚ) + 1 - 2 ^ (-54 : ℤ) := lt_trans one_pos hq1
    have hE_ge : -52 ≤ flExp ((n:ℚ) + 1 - 2 ^ (-54 : ℤ)) := by
      have h := flExp_ge ((n:ℚ) + 1 - 2 ^ (-54 : ℤ)) 0 hq0
        (by rw [zpow_zero]; exact hq1.le)
      omega
    have hE_le : flExp ((n:ℚ) + 1 - 2 ^ (-54 : ℤ)) ≤ -1 := by
      have hlt52 : (n:ℚ) + 1 - 2 ^ (-54 : ℤ) < 2 ^ (51 + 1 : ℤ) := by
        have h3 := h54pos
        have h4 := hn52
        rw [show ((51:ℤ) + 1) = 52 by norm_num]
        generalize ht : (2:ℚ) ^ (-54:ℤ) = t at h3 ⊢
        generalize hs : (2:ℚ) ^ (52:ℤ) = s at h4 ⊢
        linarith
      have h := flExp_le ((n:ℚ) + 1 - 2 ^ (-54 : ℤ)) 51 hq0 hlt52 (by norm_num)
      omega
    obtain ⟨E, hEdef⟩ : ∃ E : ℤ, flExp ((n:ℚ) + 1 - 2 ^ (-54 : ℤ)) = E :=
      ⟨_, rfl⟩
    rw [hEdef] at hE_ge hE_le
    have hEneg : (0:ℤ) ≤ -E := by omega
    have hP : (((n + 1) * 2 ^ ((-E).toNat) : ℤ) : ℚ) * 2 ^ E = (n:ℚ) + 1 := by
      push_cast
      rw [← zpow_natCast (2:ℚ), Int.toNat_of_nonneg hEneg, mul_assoc,
        two_zpow_mul, neg_add_cancel, zpow_zero, mul_one]
    unfold fl
    rw [hEdef]
    have hr : ((n:ℚ) + 1 - 2 ^ (-54 : ℤ)) * 2 ^ (-E) =
        (((n + 1) * 2 ^ ((-E).toNat) : ℤ) : ℚ) - 2 ^ (-54 - E) := by
      rw [sub_mul]
      congr 1
      · have : ((n:ℚ) + 1) = (((n + 1) * 2 ^ ((-E).toNat) : ℤ) : ℚ) * 2 ^ E := by
          rw [hP]
        rw [this, mul_assoc, two_zpow_mul, add_neg_cancel, zpow_zero, mul_one]
      · rw [two_zpow_mul]
        congr 1
    have hδ0 : (0:ℚ) < 2 ^ (-54 - E) := two_zpow_pos _
    have hδ2 : (2:ℚ) ^ (-54 - E) < 1/2 := by
      calc (2:ℚ) ^ (-54 - E) ≤ 2 ^ (-2 : ℤ) := two_zpow_le _ _ (by omega)
        _ < 1/2 := by norm_num
    rw [hr, rndNE_int_sub _ _ hδ0 hδ2, hP]

theorem kRoundConst_eq : kRoundConst = 1/2 - 2 ^ (-54 : ℤ) := rfl

theorem kRoundConst_pos : 0 < kRoundConst := by
  unfold kRoundConst
  have h : (2:ℚ) ^ (-54:ℤ) < 1/2 := by
    calc (2:ℚ) ^ (-54:ℤ) < 2 ^ (-1:ℤ) := two_zpow_lt _ _ (by norm_num)
      _ = 1/2 := by norm_num
  exact sub_pos.mpr h

theorem kRoundConst_lt_half : kRoundConst < 1/2 := by
  unfold kRoundConst
  exact sub_lt_self _ (two_zpow_pos _)

theorem kRoundConst_gt_quarter : 1/4 < kRoundConst := by
  unfold kRoundConst
  have h : (2:ℚ) ^ (-54:ℤ) < 1/4 := by
    calc (2:ℚ) ^ (-54:ℤ) < 2 ^ (-2:ℤ) := two_zpow_lt _ _ (by norm_num)
      _ = 1/4 := by norm_num
  generalize ht : (2:ℚ) ^ (-54:ℤ) = t at h ⊢
  linarith

theorem le_intLog (q : ℚ) (k : ℤ) (hq : 0 < q) (h : (2:ℚ) ^ k ≤ q) :
    k ≤ Int.log 2 q := (Int.zpow_le_iff_le_log (by norm_num) hq).mp h

theorem intLog_le (q : ℚ) (k : ℤ) (hq : 0 < q) (h : q < (2:ℚ) ^ (k + 1)) :
    Int.log 2 q ≤ k := by
  by_contra hc
  push_neg at hc
  have hh : (2:ℚ) ^ (k + 1) ≤ 2 ^ (Int.log 2 q) := two_zpow_le _ _ (by omega)
  have h3 : (2:ℚ) ^ (Int.log 2 q) ≤ q := two_zpow_log_le q hq
  linarith

theorem two_mul_zpow (a : ℤ) : (2:ℚ) * 2 ^ a = 2 ^ (a + 1) := by
  have h := two_zpow_mul 1 a
  rw [zpow_one] at h
  rw [h]
  congr 1
  ring

/-- Case 1/2 ≤ x < 2^52 of the round trick: the fractional part of x
against 1/2 decides between floor and floor + 1, exactly matching
round half away from zero. -/
theorem roundTrick_mid (x : ℚ) (hfd : FiniteDouble x) (hxlo : 1/2 ≤ x)
    (hxhi : x < (2:ℚ) ^ (52 : ℤ)) :
    truncQ (fl (x + kRoundConst)) = ⌊x + 1/2⌋ := by
  have hx0 : 0 < x := lt_of_lt_of_le (by norm_num) hxlo
  have hLlo : -1 ≤ Int.log 2 x :=
    le_intLog x (-1) hx0
      (by rw [show ((2:ℚ) ^ (-1:ℤ)) = 1/2 by norm_num]; exact hxlo)
  have hLhi : Int.log 2 x ≤ 51 :=
    intLog_le x 51 hx0
      (by rw [show ((51:ℤ) + 1) = 52 by norm_num]; exact hxhi)
  have hxltL : x < 2 ^ (Int.log 2 x + 1) := lt_two_zpow_succ_log x
  obtain ⟨M, hxM⟩ := finiteDouble_grid x hfd hx0
  obtain ⟨L, hLdef⟩ : ∃ L : ℤ, Int.log 2 x = L := ⟨_, rfl⟩
  rw [hLdef] at hLlo hLhi hxltL hxM
  have hu_pos : (0:ℚ) < 2 ^ (L - 52) := two_zpow_pos _
  have hu_lo : (2:ℚ) ^ (-53:ℤ) ≤ 2 ^ (L - 52) := two_zpow_le _ _ (by omega)
  have hu_hi : (2:ℚ) ^ (L - 52) ≤ 1/2 := by
    have h := two_zpow_le (L - 52) (-1) (by omega)
    rw [show ((2:ℚ) ^ (-1:ℤ)) = 1/2 by norm_num] at h
    exact h
  have ht_lt_u : (2:ℚ) ^ (-54:ℤ) < 2 ^ (L - 52) :=
    lt_of_lt_of_le (two_zpow_lt _ _ (by norm_num)) hu_lo
  have hflr : (⌊x⌋:ℚ) ≤ x := Int.floor_le x
  have hfu : x < ⌊x⌋ + 1 := Int.lt_floor_add_one x
  have hn0 : 0 ≤ ⌊x⌋ := Int.floor_nonneg.mpr hx0.le
  obtain ⟨n, hndef⟩ : ∃ n : ℤ, ⌊x⌋ = n := ⟨_, rfl⟩
  rw [hndef] at hflr hfu hn0
  have hnn : (0:ℚ) ≤ (n:ℚ) := by exact_mod_cast hn0
  have hn52 : (n:ℚ) + 1 ≤ 2 ^ (52:ℤ) := by
    have h1 : (n:ℚ) < (((2:ℤ) ^ 52 : ℤ) : ℚ) := by
      rw [intPow_cast]
      exact lt_of_le_of_lt hflr hxhi
    have h3 : n < (2:ℤ) ^ 52 := by exact_mod_cast h1
    have h5 : ((n + 1 : ℤ) : ℚ) ≤ (((2:ℤ) ^ 52 : ℤ) : ℚ) := by
      exact_mod_cast (by omega : n + 1 ≤ (2:ℤ) ^ 52)
    rw [intPow_cast] at h5
    push_cast at h5
    exact h5
  have h52L : (0:ℤ) ≤ 52 - L := by omega
  have hNn : ((n * 2 ^ ((52 - L).toNat) : ℤ) : ℚ) * 2 ^ (L - 52) = (n:ℚ) := by
    push_cast
    rw [← zpow_natCast (2:ℚ), Int.toNat_of_nonneg h52L, mul_assoc, two_zpow_mul,
      show (52 - L + (L - 52) : ℤ) = 0 by ring, zpow_zero, mul_one]
  have hMf : x - (n:ℚ) =
      ((M - n * 2 ^ ((52 - L).toNat) : ℤ) : ℚ) * 2 ^ (L - 52) := by
    have hsplit : ((M - n * 2 ^ ((52 - L).toNat) : ℤ) : ℚ) =
        (M : ℚ) - ((n * 2 ^ ((52 - L).toNat) : ℤ) : ℚ) := by push_cast; ring
    rw [hsplit, sub_mul, ← hxM, hNn]
  have h51L : (0:ℤ) ≤ 51 - L := by omega
  have hB : (((2:ℤ) ^ ((51 - L).toNat) : ℤ) : ℚ) * 2 ^ (L - 52) = 1/2 := by
    push_cast
    rw [← zpow_natCast (2:ℚ), Int.toNat_of_nonneg h51L, two_zpow_mul,
      show (51 - L + (L - 52) : ℤ) = -1 by ring]
    norm_num
  obtain ⟨f, hfdef⟩ : ∃ f : ℚ, x - (n:ℚ) = f := ⟨_, rfl⟩
  rw [hfdef] at hMf
  have hxnf : x = (n:ℚ) + f := by rw [← hfdef]; ring
  have hf0 : 0 ≤ f := by rw [← hfdef]; linarith
  have hf1 : f < 1 := by rw [← hfdef]; linarith
  rcases lt_or_le f (1/2) with hflt | hfge
  · -- fractional part below one half: result is n
    have hfle : f ≤ 1/2 - 2 ^ (L - 52) := by
      have hlt : ((M - n * 2 ^ ((52 - L).toNat) : ℤ) : ℚ) * 2 ^ (L - 52) <
          (((2:ℤ) ^ ((51 - L).toNat) : ℤ) : ℚ) * 2 ^ (L - 52) := by
        rw [hB, ← hMf]
        exact hflt
      have h := int_mul_le_sub _ _ _ hu_pos hlt
      rw [hB, ← hMf] at h
      exact h
    have hq0 : 0 < x + kRoundConst := by linarith [kRoundConst_pos]
    have hq_hi : x + kRoundConst < (n:ℚ) + 1 := by
      have h := kRoundConst_lt_half
      linarith [hu_pos]
    have hq52 : x + kRoundConst < 2 ^ (52:ℤ) := lt_of_lt_of_le hq_hi hn52
    have hE_le1 : flExp (x + kRoundConst) ≤ -1 := by
      have h := flExp_le (x + kRoundConst) 51 hq0
        (by rw [show ((51:ℤ) + 1) = 52 by norm_num]; exact hq52) (by norm_num)
      omega
    have hE_leu : flExp (x + kRoundConst) ≤ L - 51 := by
      have h2x : (2:ℚ) * x < 2 ^ (L + 2) := by
        have h1 : (2:ℚ) * 2 ^ (L + 1) = 2 ^ (L + 2) := by
          rw [two_mul_zpow]
          congr 1
          ring
        calc (2:ℚ) * x < 2 * 2 ^ (L + 1) := by linarith
          _ = 2 ^ (L + 2) := h1
      have h := flExp_le (x + kRoundConst) (L + 1) hq0
        (by rw [show (L + 1 + 1 : ℤ) = L + 2 by ring]
            have := kRoundConst_lt_half
            linarith)
        (by omega)
      omega
    have herr := fl_err (x + kRoundConst)
    rw [abs_le] at herr
    have herr_u : (2:ℚ) ^ (flExp (x + kRoundConst) - 1) ≤ 2 ^ (L - 52) :=
      two_zpow_le _ _ (by omega)
    have herr_q4 : (2:ℚ) ^ (flExp (x + kRoundConst) - 1) ≤ 1/4 := by
      calc (2:ℚ) ^ (flExp (x + kRoundConst) - 1) ≤ 2 ^ (-2:ℤ) :=
            two_zpow_le _ _ (by omega)
        _ = 1/4 := by norm_num
    have hlow : (n:ℚ) < fl (x + kRoundConst) := by
      have h1 := herr.1
      have h2 := kRoundConst_gt_quarter
      linarith
    have hup : fl (x + kRoundConst) < (n:ℚ) + 1 := by
      have h2 := herr.2
      have h3 := kRoundConst_lt_half
      linarith
    have hfl_pos : 0 ≤ fl (x + kRoundConst) := by linarith
    rw [truncQ_of_nonneg _ hfl_pos]
    have hfloor1 : ⌊fl (x + kRoundConst)⌋ = n :=
      Int.floor_eq_iff.mpr ⟨hlow.le, by linarith⟩
    have hfloor2 : ⌊x + 1/2⌋ = n :=
      Int.floor_eq_iff.mpr ⟨by linarith, by linarith⟩
    rw [hfloor1, hfloor2]
  · rcases eq_or_lt_of_le hfge with hfeq | hfgt
    · -- fractional part exactly one half: the tie lemma applies
      have hq_eq : x + kRoundConst = (n:ℚ) + 1 - 2 ^ (-54:ℤ) := by
        rw [hxnf, ← hfeq, kRoundConst_eq]
        ring
      have hfl_eq : fl (x + kRoundConst) = (n:ℚ) + 1 := by
        rw [hq_eq]
        exact roundTrick_tie n hn0 hn52
      have hcast : (n:ℚ) + 1 = ((n + 1 : ℤ) : ℚ) := by push_cast; ring
      have hxcast : x + 1/2 = ((n + 1 : ℤ) : ℚ) := by
        rw [hxnf, ← hfeq]
        push_cast
        ring
      rw [hfl_eq, hcast,
        truncQ_of_nonneg _ (by exact_mod_cast (by omega : (0:ℤ) ≤ n + 1)),
        Int.floor_intCast, hxcast, Int.floor_intCast]
    · -- fractional part strictly above one half: result is n + 1
      have hfge_u : 1/2 + 2 ^ (L - 52) ≤ f := by
        have hlt : (((2:ℤ) ^ ((51 - L).toNat) : ℤ) : ℚ) * 2 ^ (L - 52) <
            ((M - n * 2 ^ ((52 - L).toNat) : ℤ) : ℚ) * 2 ^ (L - 52) := by
          rw [hB, ← hMf]
          exact hfgt
        have h := int_mul_add_le _ _ _ hu_pos hlt
        rw [hB, ← hMf] at h
        exact h
      have hq_lo : (n:ℚ) + 1 + 2 ^ (L - 52) - 2 ^ (-54:ℤ) ≤ x + kRoundConst := by
        rw [hxnf, kRoundConst_eq]
        generalize ht : (2:ℚ) ^ (-54:ℤ) = t
        linarith
      have hq_gt1 : 1 < x + kRoundConst := by
        have h := ht_lt_u
        generalize ht : (2:ℚ) ^ (-54:ℤ) = t at hq_lo h
        linarith
      have hq0 : 0 < x + kRoundConst := lt_trans one_pos hq_gt1
      have hE_ge : -52 ≤ flExp (x + kRoundConst) := by
        have h := flExp_ge (x + kRoundConst) 0 hq0
          (by rw [zpow_zero]; exact hq_gt1.le)
        omega
      have hq52 : x + kRoundConst < 2 ^ (52:ℤ) := by
        rcases lt_or_le L 51 with hL50 | hL51
        · have h1 : x < 2 ^ (51:ℤ) :=
            lt_of_lt_of_le hxltL (two_zpow_le _ _ (by omega))
          have h2 : (2:ℚ) * 2 ^ (51:ℤ) = 2 ^ (52:ℤ) := by
            rw [two_mul_zpow]
            congr 1
          have h3 : (1:ℚ) ≤ 2 ^ (51:ℤ) := by
            calc (1:ℚ) = 2 ^ (0:ℤ) := by norm_num
              _ ≤ 2 ^ (51:ℤ) := two_zpow_le _ _ (by norm_num)
          have h4 := kRoundConst_lt_half
          generalize hs : (2:ℚ) ^ (51:ℤ) = s at h1 h2 h3
          generalize hs2 : (2:ℚ) ^ (52:ℤ) = s2 at h2 ⊢
          linarith
        · have hL : L = 51 := by omega
          rw [hL] at hxM
          have hB2 : (((2:ℤ) ^ 53 : ℤ) : ℚ) * 2 ^ (51 - 52 : ℤ) = 2 ^ (52:ℤ) := by
            rw [intPow_cast, two_zpow_mul]
            congr 1
          have hxlt2 : (M : ℚ) * 2 ^ (51 - 52 : ℤ) <
              (((2:ℤ) ^ 53 : ℤ) : ℚ) * 2 ^ (51 - 52 : ℤ) := by
            rw [hB2, ← hxM]
            exact hxhi
          have hxle := int_mul_le_sub _ _ _ (two_zpow_pos (51 - 52 : ℤ)) hxlt2
          rw [hB2, ← hxM, show ((51:ℤ) - 52) = -1 by norm_num,
            show ((2:ℚ) ^ (-1:ℤ)) = 1/2 by norm_num] at hxle
          have h4 := kRoundConst_lt_half
          generalize hs2 : (2:ℚ) ^ (52:ℤ) = s2 at hxle ⊢
          linarith
      have hE_le1 : flExp (x + kRoundConst) ≤ -1 := by
        have h := flExp_le (x + kRoundConst) 51 hq0
          (by rw [show ((51:ℤ) + 1) = 52 by norm_num]; exact hq52) (by norm_num)
        omega
      have hE_leu : flExp (x + kRoundConst) ≤ L - 51 := by
        have h2x : (2:ℚ) * x < 2 ^ (L + 2) := by
          have h1 : (2:ℚ) * 2 ^ (L + 1) = 2 ^ (L + 2) := by
            rw [two_mul_zpow]
            congr 1
            ring
          calc (2:ℚ) * x < 2 * 2 ^ (L + 1) := by linarith
            _ = 2 ^ (L + 2) := h1
        have h := flExp_le (x + kRoundConst) (L + 1) hq0
          (by rw [show (L + 1 + 1 : ℤ) = L + 2 by ring]
              have := kRoundConst_lt_half
              linarith)
          (by omega)
        omega
      obtain ⟨E, hEdef⟩ : ∃ E : ℤ, flExp (x + kRoundConst) = E := ⟨_, rfl⟩
      rw [hEdef] at hE_ge hE_le1 hE_leu
      have herr := fl_err (x + kRoundConst)
      rw [abs_le, hEdef] at herr
      have herr_u : (2:ℚ) ^ (E - 1) ≤ 2 ^ (L - 52) := two_zpow_le _ _ (by omega)
      have herr_q4 : (2:ℚ) ^ (E - 1) ≤ 1/4 := by
        calc (2:ℚ) ^ (E - 1) ≤ 2 ^ (-2:ℤ) := two_zpow_le _ _ (by omega)
          _ = 1/4 := by norm_num
      have hlow : (n:ℚ) + 1 ≤ fl (x + kRoundConst) := by
        by_contra hc
        push_neg at hc
        obtain ⟨kq, hkq⟩ := fl_exists_int (x + kRoundConst)
        rw [hEdef] at hkq
        have hEneg : (0:ℤ) ≤ -E := by omega
        have hP : (((n + 1) * 2 ^ ((-E).toNat) : ℤ) : ℚ) * 2 ^ E =
            (n:ℚ) + 1 := by
          push_cast
          rw [← zpow_natCast (2:ℚ), Int.toNat_of_nonneg hEneg, mul_assoc,
            two_zpow_mul, neg_add_cancel, zpow_zero, mul_one]
        have hlt : (kq : ℚ) * 2 ^ E <
            (((n + 1) * 2 ^ ((-E).toNat) : ℤ) : ℚ) * 2 ^ E := by
          rw [hP, ← hkq]
          exact hc
        have hle := int_mul_le_sub _ _ _ (two_zpow_pos E) hlt
        rw [hP, ← hkq] at hle
        have h2E : 2 * (2:ℚ) ^ (E - 1) = 2 ^ E := by
          rw [two_mul_zpow]
          congr 1
          ring
        have hEgeval : (2:ℚ) ^ (-52:ℤ) ≤ 2 ^ E := two_zpow_le _ _ (by omega)
        have ht52 : (2:ℚ) ^ (-54:ℤ) < 2 ^ (-52:ℤ) := two_zpow_lt _ _ (by norm_num)
        have hq_up := herr.1
        generalize ht : (2:ℚ) ^ (-54:ℤ) = t at hq_lo ht52
        generalize hw : (2:ℚ) ^ (-52:ℤ) = w at hEgeval ht52
        linarith [hq_up, hle, h2E, herr_u, hEgeval, ht52, hq_lo]
      have hup : fl (x + kRoundConst) < (n:ℚ) + 2 := by
        have h2 := herr.2
        have h3 := kRoundConst_lt_half
        linarith
      have hfl_pos : 0 ≤ fl (x + kRoundConst) := by linarith
      rw [truncQ_of_nonneg _ hfl_pos]
      have hfloor1 : ⌊fl (x + kRoundConst)⌋ = n + 1 :=
        Int.floor_eq_iff.mpr ⟨by push_cast; linarith, by push_cast; linarith⟩
      have hfloor2 : ⌊x + 1/2⌋ = n + 1 :=
        Int.floor_eq_iff.mpr ⟨by push_cast; linarith, by push_cast; linarith⟩
      rw [hfloor1, hfloor2]

/-- The round trick for every nonnegative finite double. -/
theorem roundTrick_nonneg (x : ℚ) (hfd : FiniteDouble x) (hx : 0 ≤ x) :
    truncQ (fl (x + kRoundConst)) = ⌊x + 1/2⌋ := by
  rcases lt_or_le x (1/2) with h | h
  · exact roundTrick_small x hfd hx h
  · rcases lt_or_le x ((2:ℚ) ^ (52:ℤ)) with h2 | h2
    · exact roundTrick_mid x hfd h h2
    · exact roundTrick_big x hfd h2

/-! ## Claim C1 -/

/-- C1: for every finite double x, the ROUND_NUM lowering — truncation
toward zero of the IEEE sum x + copysign(0.49999999999999994, x) —
computes round half away from zero at exact ties and the nearest
integer otherwise; in particular round(0.5) = 1, round(-0.5) = -1,
round(2.5) = 3 and round(0.49999999999999994) = 0. -/
theorem roundNum_lowering_correct :
    (∀ x : ℚ, FiniteDouble x →
      roundNumLowered x = (roundHalfAway x : ℚ)) ∧
    roundNumLowered (1/2) = 1 ∧
    roundNumLowered (-(1/2)) = -1 ∧
    roundNumLowered (5/2) = 3 ∧
    roundNumLowered kRoundConst = 0 := by
  have main : ∀ x : ℚ, FiniteDouble x →
      roundNumLowered x = (roundHalfAway x : ℚ) := by
    intro x hfd
    unfold roundNumLowered roundHalfAway copysignPos
    rcases lt_or_le x 0 with hneg | hpos
    · rw [if_pos hneg, if_neg (not_le.mpr hneg)]
      have hrw : x + -kRoundConst = -((-x) + kRoundConst) := by ring
      rw [hrw, fl_neg, truncQ_neg,
        roundTrick_nonneg (-x) (finiteDouble_neg x hfd) (by linarith)]
    · rw [if_neg (not_lt.mpr hpos), if_pos hpos,
        roundTrick_nonneg x hfd hpos]
  have hfd_half : FiniteDouble (1/2 : ℚ) := by
    refine ⟨2 ^ 52, -53, ?_, ?_, by norm_num, by norm_num⟩
    · rw [intPow_cast, two_zpow_mul]
      norm_num
    · rw [Int.natAbs_pow]
      norm_num
  have hval_half : roundHalfAway (1/2) = 1 := by
    unfold roundHalfAway
    rw [if_pos (by norm_num : (0:ℚ) ≤ 1/2)]
    norm_num
  have hfd_c : FiniteDouble kRoundConst := by
    refine ⟨2 ^ 53 - 1, -54, ?_, by norm_num, by norm_num, by norm_num⟩
    rw [kRoundConst_eq]
    push_cast
    have h1 : (9007199254740991 : ℚ) = 2 ^ (53:ℤ) - 1 := by norm_num
    rw [h1, sub_mul, one_mul, two_zpow_mul]
    norm_num
  refine ⟨main, ?_, ?_, ?_, ?_⟩
  · rw [main (1/2) hfd_half, hval_half]
    norm_num
  · rw [main (-(1/2)) (finiteDouble_neg _ hfd_half)]
    have hval : roundHalfAway (-(1/2)) = -1 := by
      unfold roundHalfAway
      rw [if_neg (by norm_num : ¬ (0:ℚ) ≤ -(1/2))]
      norm_num
    rw [hval]
    norm_num
  · have hfd : FiniteDouble (5/2 : ℚ) :=
      ⟨5, -1, by norm_num, by norm_num, by norm_num, by norm_num⟩
    rw [main (5/2) hfd]
    have hval : roundHalfAway (5/2) = 3 := by
      unfold roundHalfAway
      rw [if_pos (by norm_num : (0:ℚ) ≤ 5/2)]
      norm_num
    rw [hval]
    norm_num
  · rw [main kRoundConst hfd_c]
    have hval : roundHalfAway kRoundConst = 0 := by
      unfold roundHalfAway
      rw [if_pos kRoundConst_pos.le]
      apply Int.floor_eq_zero_iff.mpr
      refine Set.mem_Ico.mpr ⟨?_, ?_⟩
      · have := kRoundConst_pos
        linarith
      · have := kRoundConst_lt_half
        linarith
    rw [hval]
    norm_num

/-- Witness for C1: instantiates the universally quantified part at the
finite double 5/2 (round(2.5) = 3). -/
theorem roundNum_lowering_correct_witness :
    FiniteDouble (5/2 : ℚ) ∧
      roundNumLowered (5/2) = (roundHalfAway (5/2) : ℚ) := by
  have hfd : FiniteDouble (5/2 : ℚ) :=
    ⟨5, -1, by norm_num, by norm_num, by norm_num, by norm_num⟩
  exact ⟨hfd, roundNum_lowering_correct.1 (5/2) hfd⟩

end LuauX64
